import Mathlib

/-!
# Verification of the disk-usage treemap tool (`src/main.rs`)

A shallow embedding of the computational core of the program: the
recursive scanner/aggregator `build_tree`, the slice-and-dice layout
engine `layout_tree`, and the navigation controller (`App` state,
`find_node`, `get_node_at`, the event handlers and the layout cache).

Modelling conventions:
* `u64`/`u16`/`usize` machine integers are modelled as `Nat`; whenever the
  source can overflow or wrap (the `as u16` cast and `u16` arithmetic in
  `recalculate_layout`, the saturating `Rect::right`/`Rect::bottom`), the
  reduction modulo `2^16 = 65536` or the saturation at `65535` is written
  out explicitly.  `u16::saturating_sub` is exactly `Nat` subtraction.
* `f64` arithmetic on the values this program computes (ratios of `u64`
  sizes times a `u16` dimension, and the threshold formula) is modelled by
  exact rational arithmetic.  Floors and fractional-part comparisons of
  exact nonnegative rationals with a common denominator are realised with
  `Nat` division and remainder so that every definition evaluates inside
  the kernel: `⌊(s/t)·p⌋ = s*p/t` and `Int.fract ((s/t)·p) = (s*p % t)/t`
  for `t > 0`; bridging lemmas below prove these identities against the
  real-valued formulas.
* `PathBuf` is modelled as the list of components of an absolute path
  (`[]` is the filesystem root `/`), so `Path::parent` is `dropLast`
  (with `none` at the root) and `Path::file_name` is the last component.
* The filesystem that `build_tree` walks is modelled by an explicit tree
  (`FSDir`): a directory read either fails with an `IOErr` or yields a
  list of entries, each of which either fails (covering both the
  `entry` iteration error and the `entry.metadata()` error, which the
  source treats identically) or is a file, symlink or subdirectory.
-/

/-- `std::io::ErrorKind`, restricted to the distinction the program makes. -/
inductive IOErr where
  | permissionDenied
  | otherErr
deriving DecidableEq

/-- The `Node` struct: a scanned filesystem entry or a synthetic
"Прочее" (Other) aggregate. -/
structure Node where
  name : String
  size : Nat
  path : List String
  children : List Node
  is_dir : Bool

/-- `ratatui::layout::Rect` with `u16` fields. -/
structure LRect where
  x : Nat
  y : Nat
  width : Nat
  height : Nat
deriving DecidableEq

/-- `Rect::right = x.saturating_add(width)` (`u16` saturation). -/
def LRect.right (r : LRect) : Nat := min (r.x + r.width) 65535

/-- `Rect::bottom = y.saturating_add(height)` (`u16` saturation). -/
def LRect.bottom (r : LRect) : Nat := min (r.y + r.height) 65535

/- The filesystem being scanned.  `FSDir` is what `fs::read_dir` returns
for one directory; `FSEntryRes` is one iteration step (an `Err` covers
both a failing `entry` and a failing `entry.metadata()`, which
`build_tree` handles identically). -/
mutual
inductive FSNode where
  | file (name : String) (size : Nat)
  | symlink (name : String)
  | dir (name : String) (contents : FSDir)

inductive FSDir where
  | readErr (e : IOErr)
  | readOk (entries : List FSEntryRes)

inductive FSEntryRes where
  | entryErr (e : IOErr)
  | entry (node : FSNode)
end

/-- `root.file_name().map_or("".to_string(), …)` on an absolute path:
the last component, `""` for the root. -/
def lastName (p : List String) : String := p.getLastD ""

/-- Stable insertion of `x` into a list sorted descending by key `k`:
`x` goes in front of the first element whose key is not larger.  Used to
model Rust's stable `sort_by`/`sort_by_key` with a descending
comparator: a stable sort is extensionally determined by its comparator,
and insertion sort realises it. -/
def insDesc {α β : Type} [LinearOrder β] (k : α → β) (x : α) : List α → List α
  | [] => [x]
  | y :: ys => if k x < k y then y :: insDesc k x ys else x :: y :: ys

/-- Stable descending sort by key `k`: models
`children.sort_by_key(|c| Reverse(c.total_size()))` (with `k = Node.size`)
and `fractional.sort_by(|a, b| b.1.partial_cmp(&a.1)…)` (with
`k = Prod.snd`), both of which use Rust's stable `Vec` sort. -/
def sortDesc {α β : Type} [LinearOrder β] (k : α → β) : List α → List α
  | [] => []
  | x :: xs => insDesc k x (sortDesc k xs)

/-- The `count_factor` computed in `build_tree`
(`0.001` / `0.005` / `0.01` as exact rationals). -/
def count_factor (file_count : Nat) : ℚ :=
  if 200 < file_count then 1/1000
  else if 50 < file_count then 5/1000
  else 1/100

/-- Denominator view of `count_factor`: `0.001 = 1/1000`, `0.005 = 1/200`,
`0.01 = 1/100`. -/
def cfDen (file_count : Nat) : Nat :=
  if 200 < file_count then 1000 else if 50 < file_count then 200 else 100

/-- The aggregation threshold of `build_tree`:
`size_based.max(avg_based).max(1024.0) as u64` with
`size_based = total_size * count_factor` and
`avg_based = (file_total_size / file_count) * 0.2`, i.e.
`⌊max (max (total·cf) (avg·1/5)) 1024⌋` computed by exact `Nat`
floor-divisions (floor commutes with `max`, and `1024` is an integer);
`u64::MAX` when there are no files (`file_count = 0`). -/
def threshold (file_count total_size file_total_size : Nat) : Nat :=
  if 0 < file_count then
    max (max (total_size / cfDen file_count) (file_total_size / (5 * file_count))) 1024
  else 18446744073709551615

/-- The aggregation loop of `build_tree`: walks the (sorted) children,
adds every non-directory child with `size < threshold` to the
`other_size` accumulator and keeps the rest, preserving order. -/
def foldSmall (thr : Nat) : List Node → Nat × List Node
  | [] => (0, [])
  | c :: rest =>
    let (o, f) := foldSmall thr rest
    if c.is_dir = false ∧ c.size < thr then (o + c.size, f) else (o, c :: f)

/- `build_tree(root, ignore)` together with its per-directory scan loop
`scanEntries` (the `for entry in read_dir` loop), which returns the
children in entry order with the `total_size`, `file_count` and
`file_total_size` accumulators. -/
mutual
def build_tree (ignore : Bool) (path : List String) : FSDir → Except IOErr Node
  | .readErr e =>
    if ignore = true ∧ e = .permissionDenied then
      .ok ⟨lastName path, 0, path, [], true⟩
    else .error e
  | .readOk entries => do
    let (cs, total, fc, ft) ← scanEntries ignore path entries
    let sorted := sortDesc Node.size cs
    let thr := threshold fc total ft
    let (other_size, filtered) := foldSmall thr sorted
    let filtered2 :=
      if 0 < other_size then filtered ++ [⟨"Прочее", other_size, path, [], false⟩]
      else filtered
    .ok ⟨lastName path, total, path, filtered2, true⟩

def scanEntries (ignore : Bool) (path : List String) :
    List FSEntryRes → Except IOErr (List Node × Nat × Nat × Nat)
  | [] => .ok ([], 0, 0, 0)
  | .entryErr e :: rest =>
    if ignore = true ∧ e = .permissionDenied then scanEntries ignore path rest
    else .error e
  | .entry (.symlink _) :: rest => scanEntries ignore path rest
  | .entry (.file n sz) :: rest => do
    let (cs, total, fc, ft) ← scanEntries ignore path rest
    .ok (⟨n, sz, path ++ [n], [], false⟩ :: cs, total + sz, fc + 1, ft + sz)
  | .entry (.dir n c) :: rest => do
    let child ← build_tree ignore (path ++ [n]) c
    let (cs, total, fc, ft) ← scanEntries ignore path rest
    .ok (child :: cs, total + child.size, fc, ft)
end

/-- The integer-cell allocation of `layout_tree`: ideal share
`(c.size as f64 / total) * primary_dim` floored (`.floor() as u16`, which
saturates at `65535`), then the remainder `primary_dim - Σ floors`
distributed one cell each to the largest fractional parts, sorted
descending by `v.fract()` with Rust's stable sort.  For `total > 0` the
share of `s` is the exact rational `(s/total)·pd`, whose floor is
`s*pd/total` and whose fractional part is `(s*pd % total)/total`; the
fractional parts share the denominator `total`, so sorting by the `Nat`
remainder `s*pd % total` is sorting by the fractional part. -/
def childAlloc (total pd : Nat) (sizes : List Nat) : List Nat :=
  let integer0 := sizes.map fun s => min (s * pd / total) 65535
  let allocated := integer0.sum
  let remainder := pd - allocated
  let fractional := sizes.enum.map fun p => (p.1, p.2 * pd % total)
  let fracSorted := sortDesc Prod.snd fractional
  let granted := (fracSorted.take remainder).map Prod.fst
  granted.foldl (fun l i => l.set i (l.getD i 0 + 1)) integer0

/-- `area.right()` / `area.bottom()` along the primary axis. -/
def farEdge (area : LRect) (hv : Bool) : Nat := if hv then area.right else area.bottom

/-- The initial `current_pos` (`area.x` if horizontal else `area.y`). -/
def primaryStart (area : LRect) (hv : Bool) : Nat := if hv then area.x else area.y

/-- `primary_dim = area.width` if horizontal else `area.height`. -/
def primaryDim (area : LRect) (hv : Bool) : Nat := if hv then area.width else area.height

/-- The primary-axis extent of a placed rectangle. -/
def primSize (r : LRect) (hv : Bool) : Nat := if hv then r.width else r.height

/-- The `child_rect` built in the placement loop. -/
def mkStrip (area : LRect) (hv : Bool) (pos sz : Nat) : LRect :=
  if hv then ⟨pos, area.y, sz, area.height⟩ else ⟨area.x, pos, area.width, sz⟩

/-- The placement loop of `layout_tree`: bump an allocation `< 3` to `3`
when `primary_dim ≥ 3`, skip a zero-size allocation, cap to the cells
remaining before the far edge (`available` uses `saturating_sub`), stop
entirely if fewer than `3` cells remain, otherwise place the strip and
advance `current_pos`. -/
def placeLoop {α : Type} (hv : Bool) (area : LRect) (pd : Nat) :
    List (α × Nat) → Nat → List (α × LRect)
  | [], _ => []
  | (a, sz) :: rest, pos =>
    let sz1 := if sz < 3 ∧ 3 ≤ pd then 3 else sz
    if sz1 = 0 then placeLoop hv area pd rest pos
    else
      let avail := farEdge area hv - pos
      let sz2 := min sz1 avail
      if sz2 < 3 then []
      else (a, mkStrip area hv pos sz2) :: placeLoop hv area pd rest (pos + sz2)

/-- The leftover-donation step at the end of `layout_tree`: if cells
remain before the far edge and something was placed, pop the last
`(rect, node)` pair of the flattened result and extend that rectangle's
primary dimension by the remaining cells. -/
def donate (hv : Bool) (area : LRect) (pos : Nat) (result : List (LRect × Node)) :
    List (LRect × Node) :=
  let remaining := farEdge area hv - pos
  if remaining = 0 then result
  else
    match result.getLast? with
    | none => result
    | some (r, n) =>
      result.dropLast ++
        [(if hv then ⟨r.x, r.y, r.width + remaining, r.height⟩
          else ⟨r.x, r.y, r.width, r.height + remaining⟩, n)]

/-- `layout_tree(node, area, horizontal)`: returns `[(area, node)]` when
the node has no children, the rectangle is smaller than `3×3`, or no
child has positive size; otherwise allocates integer cells to the
positive-size children, places them along the primary axis, recurses
into each placed strip with the orientation flipped, and donates any
remaining cells to the last rectangle of the flattened result.
(`node.children.attach` carries the membership proofs used for
termination; a placed element `p` satisfies `p.1.1 ∈ node.children`.) -/
def layout_tree (node : Node) (area : LRect) (hv : Bool) : List (LRect × Node) :=
  if node.children.isEmpty || area.width < 3 || area.height < 3 then [(area, node)]
  else
    let children := node.children.attach.filter fun c => decide (0 < c.1.size)
    if children.isEmpty then [(area, node)]
    else
      let pd := primaryDim area hv
      let alloc := childAlloc node.size pd (children.map fun c => c.1.size)
      let placed := placeLoop hv area pd (children.zip alloc) (primaryStart area hv)
      let result := placed.flatMap fun p => layout_tree p.1.1 p.2 (!hv)
      let pos := primaryStart area hv + (placed.map fun p => primSize p.2 hv).sum
      donate hv area pos result
termination_by sizeOf node
decreasing_by
  have h1 : sizeOf p.1.1 < sizeOf node.children := List.sizeOf_lt_of_mem p.1.2
  cases node
  simp only at h1 ⊢
  simp only [Node.mk.sizeOf_spec]
  omega

/-- The `App` struct (navigation state). -/
structure App where
  root : Node
  layout : List (LRect × Node)
  layout_dirty : Bool
  last_area_size : Nat × Nat
  selected : Option (List String)
  current_dir : List String
  mouse_pos : Nat × Nat
  offset_x : Nat
  offset_y : Nat
  scroll_mode : Bool

/-- `App::new(root)`. -/
def App.new (root : Node) : App :=
  { root := root
    layout := []
    layout_dirty := true
    last_area_size := (0, 0)
    selected := none
    current_dir := root.path
    mouse_pos := (0, 0)
    offset_x := 0
    offset_y := 0
    scroll_mode := false }

/- The inner `recurse` of `App::find_node`: pre-order search for the
first node whose `path` equals `p` (the node itself is checked before
its children); `findChild` is the `for child in &node.children` loop
with its early `return`. -/
mutual
def findRec (p : List String) : Node → Option Node
  | ⟨name, sz, path, cs, d⟩ =>
    if path = p then some ⟨name, sz, path, cs, d⟩ else findChild p cs

def findChild (p : List String) : List Node → Option Node
  | [] => none
  | c :: rest =>
    match findRec p c with
    | some found => some found
    | none => findChild p rest
end

/-- `App::find_node`: checks the root, then runs `recurse` from the root
(which re-checks the root first). -/
def App.find_node (app : App) (p : List String) : Option Node :=
  if app.root.path = p then some app.root else findRec p app.root

/-- The hit test of `App::get_node_at` on one cached rectangle: the
rectangle is translated by `(-offset_x, -offset_y)` in `i32` arithmetic
and containment is half-open. -/
def hitTest (ox oy : Nat) (r : LRect) (x y : Nat) : Bool :=
  let rx : Int := (r.x : Int) - (ox : Int)
  let ry : Int := (r.y : Int) - (oy : Int)
  let rw : Int := r.width
  let rh : Int := r.height
  (x : Int) ≥ rx ∧ (x : Int) < rx + rw ∧ (y : Int) ≥ ry ∧ (y : Int) < ry + rh

/-- `App::get_node_at`: the first cached rectangle (in list order)
containing the translated point, if any. -/
def App.get_node_at (app : App) (x y : Nat) : Option Node :=
  (app.layout.find? fun p => hitTest app.offset_x app.offset_y p.1 x y).map Prod.snd

/-- The `MouseEventKind::Moved` handler: record the mouse position and
set `selected` to the path of the hit node (or `none` on a miss). -/
def onMouseMove (app : App) (col row : Nat) : App :=
  { app with
    mouse_pos := (col, row)
    selected := (app.get_node_at col row).map Node.path }

/-- `Path::parent` on an absolute component list. -/
def parentPath (p : List String) : Option (List String) :=
  if p = [] then none else some p.dropLast

/-- The `KeyCode::Enter` handler: if the selected path resolves to a
directory with at least one child, zoom into it and reset the offsets. -/
def onEnter (app : App) : App :=
  match app.selected with
  | none => app
  | some selected =>
    match app.find_node selected with
    | none => app
    | some node =>
      if node.is_dir = true ∧ node.children.isEmpty = false then
        { app with
          current_dir := node.path
          offset_x := 0
          offset_y := 0
          layout_dirty := true }
      else app

/-- The `KeyCode::Char('h') | KeyCode::Left` handler: scroll left in
scroll mode, otherwise navigate to the parent directory if one exists. -/
def onLeft (app : App) : App :=
  if app.scroll_mode = true then { app with offset_x := app.offset_x - 5 }
  else
    match parentPath app.current_dir with
    | none => app
    | some parent =>
      { app with
        current_dir := parent
        offset_x := 0
        offset_y := 0
        layout_dirty := true }

/-- The virtual-canvas side computed in `App::recalculate_layout` in
scroll mode: `(200u16 + (children.len() as u16) * 5).min(5000)`.  The
`as u16` cast truncates modulo `2^16` and the `u16` addition and
multiplication wrap modulo `2^16` (release-profile semantics; the debug
profile panics at the same inputs). -/
def dynamicSize (count : Nat) : Nat :=
  min ((200 + (count % 65536) * 5 % 65536) % 65536) 5000

/-- `App::recalculate_layout`: resolve `current_dir` (falling back to the
root), lay out against the oversized square canvas in scroll mode or
against the live area otherwise, and cache the flat list. -/
def App.recalculate_layout (app : App) (area : LRect) : App :=
  let current_node := (app.find_node app.current_dir).getD app.root
  let layout_area :=
    if app.scroll_mode = true then
      let d := dynamicSize current_node.children.length
      ⟨0, 0, d, d⟩
    else area
  { app with layout := layout_tree current_node layout_area true }

/-- `App::ensure_layout`: recompute the cached layout when it is dirty,
the viewport size changed, or the scroll mode flipped; note that
`recalculate_layout` runs before `scroll_mode` is updated, so it sees
the previous frame's mode. -/
def App.ensure_layout (app : App) (area : LRect) : App :=
  let area_size := (area.width, area.height)
  let new_scroll_mode : Bool := area.width < 40 || area.height < 20
  if app.layout_dirty = true ∨ app.last_area_size ≠ area_size
      ∨ app.scroll_mode ≠ new_scroll_mode then
    let app1 := app.recalculate_layout area
    { app1 with
      last_area_size := area_size
      scroll_mode := new_scroll_mode
      layout_dirty := false }
  else app

/- The recursive size invariant: every directory node's `size` is the
sum of its children's `size` fields, at every level of the tree. -/
mutual
def sizeInvB : Node → Bool
  | ⟨_, sz, _, cs, d⟩ => (!d || sz == (cs.map Node.size).sum) && sizeInvL cs

def sizeInvL : List Node → Bool
  | [] => true
  | c :: rest => sizeInvB c && sizeInvL rest
end

/-! ### Derived views of one `layout_tree` level (used to state the
layout claims; `layout_tree` is proved equal to their composition). -/

/-- Cell membership in a rectangle (half-open on both axes). -/
def LRect.containsB (r : LRect) (px py : Nat) : Bool :=
  decide (r.x ≤ px) && decide (px < r.x + r.width)
    && decide (r.y ≤ py) && decide (py < r.y + r.height)

/-- Primary-axis start of a rectangle. -/
def rectPrimStart (r : LRect) (hv : Bool) : Nat := if hv then r.x else r.y

/-- The positive-size children admitted to layout
(`children.iter().filter(|c| c.size > 0)`). -/
def posChildren (node : Node) : List Node :=
  node.children.filter fun c => decide (0 < c.size)

/-- The integer-cell allocation `layout_tree` computes at one level. -/
def levelAlloc (node : Node) (area : LRect) (hv : Bool) : List Nat :=
  childAlloc node.size (primaryDim area hv) ((posChildren node).map Node.size)

/-- The per-child strips `layout_tree` places at one level. -/
def levelPlaced (node : Node) (area : LRect) (hv : Bool) : List (Node × LRect) :=
  placeLoop hv area (primaryDim area hv)
    ((posChildren node).zip (levelAlloc node area hv)) (primaryStart area hv)

/-- The placed strips are consecutive along the primary axis starting at
`pos`: each rectangle starts where the previous one ended. -/
def consecFrom (hv : Bool) : Nat → List (Node × LRect) → Bool
  | _, [] => true
  | pos, (_, r) :: rest =>
    decide (rectPrimStart r hv = pos) && consecFrom hv (pos + primSize r hv) rest

/-! ### Path-structure invariants of built trees (used for the
`find_node` claim). -/

/-- A child is either a real filesystem child (its `path` extends the
parent's by its own `name`) or an "Прочее" aggregate (same `path` as the
parent, a childless non-directory). -/
def childOkB (pp : List String) (c : Node) : Bool :=
  decide (c.path = pp ++ [c.name])
    || (decide (c.path = pp) && !c.is_dir && c.children.isEmpty)

/-- Names of the real (path-extending) children. -/
def realNames (pp : List String) (cs : List Node) : List String :=
  (cs.filter fun c => decide (c.path = pp ++ [c.name])).map Node.name

/- Structural path invariant of a tree: every child is `childOkB` for
its parent, real children have pairwise distinct names, recursively. -/
mutual
def goodTree : Node → Bool
  | ⟨_, _, path, cs, _⟩ => goodList path cs && decide (realNames path cs).Nodup

def goodList (pp : List String) : List Node → Bool
  | [] => true
  | c :: rest => (childOkB pp c && goodTree c) && goodList pp rest
end

/- The nodes of a tree in pre-order (the order `find_node` visits). -/
mutual
def nodesOf : Node → List Node
  | ⟨n, s, p, cs, d⟩ => ⟨n, s, p, cs, d⟩ :: nodesL cs

def nodesL : List Node → List Node
  | [] => []
  | c :: rest => nodesOf c ++ nodesL rest
end

/-- The name of a filesystem entry. -/
def fsname : FSNode → String
  | .file n _ => n
  | .symlink n => n
  | .dir n _ => n

/-- Names of the successfully read entries of one directory listing. -/
def entryNames : List FSEntryRes → List String
  | [] => []
  | .entryErr _ :: rest => entryNames rest
  | .entry n :: rest => fsname n :: entryNames rest

/- Well-formedness of the scanned filesystem: within every readable
directory the entry names are pairwise distinct (true of every real
filesystem, where names are unique within a directory). -/
mutual
def wfFSNode : FSNode → Bool
  | .file _ _ => true
  | .symlink _ => true
  | .dir _ c => wfDir c

def wfDir : FSDir → Bool
  | .readErr _ => true
  | .readOk entries => wfEntries entries && decide (entryNames entries).Nodup

def wfEntries : List FSEntryRes → Bool
  | [] => true
  | .entryErr _ :: rest => wfEntries rest
  | .entry n :: rest => wfFSNode n && wfEntries rest
end

/-! ### Concrete instances used by witnesses and counterexamples. -/

/-- A sample filesystem: two small files and a subdirectory. -/
def wFS : FSDir :=
  .readOk [.entry (.file "a" 500), .entry (.file "b" 300),
    .entry (.dir "subdir" (.readOk [.entry (.file "c" 2000)]))]

/-- The node `build_tree` produces for `wFS` at root `/r`. -/
def wNode : Node :=
  ⟨"r", 2800, ["r"],
    [⟨"subdir", 2000, ["r", "subdir"],
      [⟨"c", 2000, ["r", "subdir", "c"], [], false⟩], true⟩,
     ⟨"Прочее", 800, ["r"], [], false⟩], true⟩

/-- The subdirectory node inside `wNode` (find-node witness target: its
parent's "Прочее" sibling shares the parent's path, not this one's). -/
def wSubdir : Node :=
  ⟨"subdir", 2000, ["r", "subdir"],
    [⟨"c", 2000, ["r", "subdir", "c"], [], false⟩], true⟩

/-- Layout example children: sizes `50` and `20` (shares `50/7 ≈ 7.142857`
and `2.857143` of a primary dimension of `10`). -/
def wlay1 : Node := ⟨"a", 50, ["r", "a"], [], false⟩

/-- Second layout example child. -/
def wlay2 : Node := ⟨"b", 20, ["r", "b"], [], false⟩

/-- Layout example root of size `70`. -/
def wlayRoot : Node := ⟨"r", 70, ["r"], [wlay1, wlay2], true⟩

/-- Layout example rectangle. -/
def wArea : LRect := ⟨0, 0, 10, 10⟩

/-- An `App` with a cached two-strip layout (hit-test witness). -/
def wHitApp : App :=
  { App.new wlayRoot with layout := [(⟨0, 0, 7, 10⟩, wlay1), (⟨7, 0, 3, 10⟩, wlay2)] }

/-- An `App` with a selection and an empty cached layout: every mouse
position misses (hit-test counterexample). -/
def cMissApp : App :=
  { App.new wlayRoot with selected := some ["r", "a"], layout := [] }

/-- A root whose only child has size zero, so the whole layout is the
single rectangle of the root itself (navigation counterexample). -/
def c7root : Node := ⟨"r", 0, ["r"], [⟨"f", 0, ["r", "f"], [], false⟩], true⟩

/-- The app for the navigation counterexample. -/
def c7app : App := App.new c7root

/-- A normal-mode viewport. -/
def c7area : LRect := ⟨0, 0, 80, 24⟩

/-- Navigation witness: a directory `b` that is a direct child of the
zoom root `r`. -/
def w7b : Node := ⟨"b", 5, ["r", "b"], [⟨"c", 5, ["r", "b", "c"], [], false⟩], true⟩

/-- Navigation witness root. -/
def w7root : Node := ⟨"r", 5, ["r"], [w7b], true⟩

/-- Navigation witness app with `b` selected. -/
def w7app : App := { App.new w7root with selected := some ["r", "b"] }

/-- A directory with `13068` direct children: the `u16` expression
`200 + 13068 * 5` wraps modulo `65536` to `4` (canvas counterexample). -/
def bigRoot : Node :=
  ⟨"r", 0, ["r"], List.replicate 13068 ⟨"f", 0, ["r", "f"], [], false⟩, true⟩

/-- The app for the canvas counterexample, already in scroll mode. -/
def bigApp : App := { App.new bigRoot with scroll_mode := true }

/-- A rectangle at the `u16` saturation corner: `x + width` exceeds
`65535`, so `Rect::right()` saturates and fewer than `3` cells are
available from the starting position. -/
def c10rect : LRect := ⟨65534, 0, 10, 10⟩

/-- A node with two equal positive-size children summing to its size
(partition counterexample subject). -/
def c2node : Node :=
  ⟨"r", 2, ["r"],
    [⟨"a", 1, ["r", "a"], [], false⟩, ⟨"b", 1, ["r", "b"], [], false⟩], true⟩

/-- A rectangle whose far edge saturates but still leaves at least `3`
cells for every child: `x + width = 66000 > 65535`, so `Rect::right()`
is `65535` and only `535` of the `1000` primary cells are reachable,
yet both children are placed (`500` and then `min 500 35 = 35` cells,
both `≥ 3`, so the placement loop never stops early). -/
def c2rect : LRect := ⟨65000, 0, 1000, 10⟩

/-! ## Basic lemmas -/

theorem sizeInvL_eq_all (l : List Node) : sizeInvL l = l.all sizeInvB := by
  induction l with
  | nil => rfl
  | cons c rest ih => rw [sizeInvL, ih, List.all_cons]

theorem insDesc_perm {α β : Type} [LinearOrder β] (k : α → β) (x : α) (l : List α) :
    (insDesc k x l).Perm (x :: l) := by
  induction l with
  | nil => rfl
  | cons y ys ih =>
    rw [insDesc]
    split
    · exact (ih.cons y).trans (List.Perm.swap x y ys)
    · rfl

theorem sortDesc_perm {α β : Type} [LinearOrder β] (k : α → β) (l : List α) :
    (sortDesc k l).Perm l := by
  induction l with
  | nil => rfl
  | cons x xs ih => exact (insDesc_perm k x (sortDesc k xs)).trans (ih.cons x)

theorem foldSmall_eq (thr : Nat) (l : List Node) :
    foldSmall thr l =
      (((l.filter fun c => !c.is_dir && decide (c.size < thr)).map Node.size).sum,
        l.filter fun c => c.is_dir || !decide (c.size < thr)) := by
  induction l with
  | nil => rfl
  | cons c rest ih =>
    rw [foldSmall, ih]
    rcases Bool.eq_false_or_eq_true c.is_dir with hd | hd <;>
      by_cases hs : c.size < thr <;>
        simp [hd, hs, List.filter_cons, Nat.add_comm]

/-! ## C6: the error policy of `build_tree` -/

/-- C6: `build_tree` returns an error (aborting the whole scan) on any
failure to read a directory, iterate an entry, or read an entry's
metadata, unless the ignore-permission flag is set and the failure is a
permission error, in which case a whole-directory read failure yields a
zero-size childless directory placeholder and a per-entry (or metadata)
failure skips that entry and continues within the same directory. -/
theorem C6_error_policy (ignore : Bool) (path : List String) (e : IOErr)
    (rest : List FSEntryRes) (n : String) :
    (build_tree ignore path (.readErr e) =
      if ignore = true ∧ e = .permissionDenied then
        .ok ⟨lastName path, 0, path, [], true⟩
      else .error e)
    ∧ (build_tree true path (.readOk (.entryErr .permissionDenied :: rest)) =
        build_tree true path (.readOk rest))
    ∧ (ignore = false ∨ e = .otherErr →
        build_tree ignore path (.readOk (.entryErr e :: rest)) = .error e)
    ∧ (ignore = false ∨ e = .otherErr →
        build_tree ignore path (.readOk (.entry (.dir n (.readErr e)) :: rest)) =
          .error e) := by
  have hno : ignore = false ∨ e = .otherErr → ¬(ignore = true ∧ e = .permissionDenied) := by
    rintro (h | h) ⟨h1, h2⟩
    · rw [h] at h1; cases h1
    · rw [h] at h2; cases h2
  refine ⟨rfl, ?_, ?_, ?_⟩
  · rw [build_tree, build_tree, scanEntries]
    simp
  · intro h
    rw [build_tree, scanEntries, if_neg (hno h)]
    rfl
  · intro h
    rw [build_tree, scanEntries, build_tree, if_neg (hno h)]
    rfl

/-- C6 witness: concrete instances of every clause of the policy. -/
theorem C6_error_policy_witness :
    build_tree false ["r"] (.readOk [.entryErr .otherErr]) = .error .otherErr
    ∧ build_tree true ["r"]
        (.readOk [.entry (.dir "d" (.readErr .otherErr))]) = .error .otherErr
    ∧ build_tree true ["r"] (.readErr .permissionDenied) =
        .ok ⟨"r", 0, ["r"], [], true⟩
    ∧ build_tree true ["r"] (.readOk (.entryErr .permissionDenied :: [])) =
        build_tree true ["r"] (.readOk []) :=
  ⟨(C6_error_policy false ["r"] .otherErr [] "d").2.2.1 (Or.inl rfl),
   (C6_error_policy true ["r"] .otherErr [] "d").2.2.2 (Or.inr rfl),
   by
     have h := (C6_error_policy true ["r"] .permissionDenied [] "d").1
     simpa using h,
   (C6_error_policy true ["r"] .permissionDenied [] "d").2.1⟩

/-! ## C1: the size invariant of built trees -/

theorem sum_size_filter (P : Node → Bool) (l : List Node) :
    ((l.filter fun c => !(P c)).map Node.size).sum + ((l.filter P).map Node.size).sum
      = (l.map Node.size).sum := by
  induction l with
  | nil => rfl
  | cons c rest ih =>
    rcases Bool.eq_false_or_eq_true (P c) with h | h <;>
      · simp [List.filter_cons, h]
        omega

theorem all_of_sublist {p : Node → Bool} {l₁ l₂ : List Node} (hs : l₁.Sublist l₂)
    (h : l₂.all p = true) : l₁.all p = true := by
  rw [List.all_eq_true] at *
  exact fun a ha => h a (hs.subset ha)

theorem all_of_perm {p : Node → Bool} {l₁ l₂ : List Node} (h : l₁.Perm l₂)
    (ha : l₂.all p = true) : l₁.all p = true := by
  rw [List.all_eq_true] at *
  exact fun a haa => ha a (h.subset haa)

theorem except_bind_ok {α β γ : Type} (a : α) (f : α → Except γ β) :
    (Except.ok a >>= f : Except γ β) = f a := rfl

theorem except_bind_err {α β γ : Type} (e : γ) (f : α → Except γ β) :
    (Except.error e >>= f : Except γ β) = Except.error e := rfl

/-- C1: for every tree returned by `build_tree` (any root path, either
value of the ignore-permission flag, any filesystem), every directory
node's `size` equals the exact sum of its children's `size` fields,
recursively at every level — including levels where small files were
folded into the "Прочее" node and zero-size permission placeholders. -/
theorem C1_size_invariant (ignore : Bool) (path : List String) (fs : FSDir)
    (node : Node) (h : build_tree ignore path fs = .ok node) :
    sizeInvB node = true := by
  refine build_tree.induct ignore
    (fun path fs => ∀ node, build_tree ignore path fs = .ok node → sizeInvB node = true)
    (fun path entries => ∀ cs t fc ft,
      scanEntries ignore path entries = .ok (cs, t, fc, ft) →
        cs.all sizeInvB = true ∧ t = (cs.map Node.size).sum)
    ?_ ?_ ?_ ?_ ?_ ?_ ?_ ?_ ?_ path fs node h
  · -- whole-directory permission failure: zero-size placeholder
    intro path e hpe node hn
    rw [build_tree, if_pos hpe] at hn
    cases hn
    rfl
  · -- whole-directory failure, fatal
    intro path e hpe node hn
    rw [build_tree, if_neg hpe] at hn
    cases hn
  · -- successful directory read: sort, threshold, aggregate
    intro path entries ih node hn
    rw [build_tree] at hn
    rcases hscan : scanEntries ignore path entries with e | res
    · rw [hscan] at hn
      rw [except_bind_err] at hn
      cases hn
    · obtain ⟨cs, t, fc, ft⟩ := res
      rw [hscan] at hn
      rw [except_bind_ok] at hn
      obtain ⟨hall, hsum⟩ := ih cs t fc ft hscan
      have hperm : (sortDesc Node.size cs).Perm cs := sortDesc_perm Node.size cs
      have hsum2 : ((sortDesc Node.size cs).map Node.size).sum = (cs.map Node.size).sum :=
        (hperm.map Node.size).sum_eq
      have hall2 : (sortDesc Node.size cs).all sizeInvB = true := all_of_perm hperm hall
      simp only [foldSmall_eq] at hn
      simp only [Except.ok.injEq] at hn
      subst hn
      set thr := threshold fc t ft with hthr
      set sorted := sortDesc Node.size cs with hsorted
      have hpart :
          ((sorted.filter fun c => !(c.is_dir || !decide (c.size < thr))).map Node.size).sum
            + ((sorted.filter fun c => c.is_dir || !decide (c.size < thr)).map Node.size).sum
            = (sorted.map Node.size).sum :=
        sum_size_filter _ sorted
      have hfeq : (sorted.filter fun c => !c.is_dir && decide (c.size < thr))
          = sorted.filter fun c => !(c.is_dir || !decide (c.size < thr)) := by
        apply List.filter_congr
        intro c _
        cases c.is_dir <;> cases hdec : decide (c.size < thr) <;> simp
      have hkept : (sorted.filter fun c => c.is_dir || !decide (c.size < thr)).all sizeInvB
          = true :=
        all_of_sublist (List.filter_sublist _) hall2
      rw [sizeInvB]
      simp only [Bool.not_true, Bool.false_or, Bool.and_eq_true, beq_iff_eq]
      constructor
      · -- size = sum of (post-aggregation) children
        split
        · rename_i hother
          rw [List.map_append, List.sum_append]
          simp only [List.map_cons, List.map_nil, List.sum_cons, List.sum_nil]
          rw [hfeq] at hother ⊢
          omega
        · rename_i hother
          rw [hfeq] at hother
          omega
      · -- every child satisfies the invariant
        rw [sizeInvL_eq_all]
        split
        · rw [List.all_append]
          simp only [Bool.and_eq_true]
          exact ⟨hkept, rfl⟩
        · exact hkept
  · -- scan: empty listing
    intro path cs t fc ft hn
    rw [scanEntries] at hn
    cases hn
    exact ⟨rfl, rfl⟩
  · -- scan: skipped permission-denied entry
    intro path e rest hpe ih cs t fc ft hn
    rw [scanEntries, if_pos hpe] at hn
    exact ih cs t fc ft hn
  · -- scan: fatal entry error
    intro path e rest hpe cs t fc ft hn
    rw [scanEntries, if_neg hpe] at hn
    cases hn
  · -- scan: symlink skipped
    intro path name rest ih cs t fc ft hn
    rw [scanEntries] at hn
    exact ih cs t fc ft hn
  · -- scan: file entry
    intro path n sz rest ih cs t fc ft hn
    rw [scanEntries] at hn
    rcases hscan : scanEntries ignore path rest with e | res
    · rw [hscan, except_bind_err] at hn
      cases hn
    · obtain ⟨cs', t', fc', ft'⟩ := res
      rw [hscan, except_bind_ok] at hn
      obtain ⟨hall, hsum⟩ := ih cs' t' fc' ft' hscan
      simp only [Except.ok.injEq, Prod.mk.injEq] at hn
      obtain ⟨h1, h2, _, _⟩ := hn
      subst h1
      subst h2
      refine ⟨?_, ?_⟩
      · rw [List.all_cons, hall]
        rfl
      · simp only [List.map_cons, List.sum_cons]
        omega
  · -- scan: directory entry (recursive call)
    intro path n c rest ih1 ih2 cs t fc ft hn
    rw [scanEntries] at hn
    rcases hchild : build_tree ignore (path ++ [n]) c with e | child
    · rw [hchild, except_bind_err] at hn
      cases hn
    · rw [hchild, except_bind_ok] at hn
      rcases hscan : scanEntries ignore path rest with e | res
      · rw [hscan, except_bind_err] at hn
        cases hn
      · obtain ⟨cs', t', fc', ft'⟩ := res
        rw [hscan, except_bind_ok] at hn
        obtain ⟨hall, hsum⟩ := ih2 cs' t' fc' ft' hscan
        simp only [Except.ok.injEq, Prod.mk.injEq] at hn
        obtain ⟨h1, h2, _, _⟩ := hn
        subst h1
        subst h2
        refine ⟨?_, ?_⟩
        · rw [List.all_cons, hall, ih1 child hchild]
          rfl
        · simp only [List.map_cons, List.sum_cons]
          omega

/-- C1 witness: the sample filesystem builds to `wNode`, which satisfies
the invariant. -/
theorem C1_size_invariant_witness :
    build_tree false ["r"] wFS = .ok wNode ∧ sizeInvB wNode = true :=
  ⟨rfl, C1_size_invariant false ["r"] wFS wNode rfl⟩

/-! ## C5: the aggregation threshold -/

theorem nat_floor_max (a b : ℚ) : ⌊max a b⌋₊ = max ⌊a⌋₊ ⌊b⌋₊ := by
  rcases le_total a b with h | h
  · rw [max_eq_right h, max_eq_right (Nat.floor_mono h)]
  · rw [max_eq_left h, max_eq_left (Nat.floor_mono h)]

theorem count_factor_eq_inv_cfDen (fc : Nat) :
    count_factor fc = ((cfDen fc : ℚ))⁻¹ := by
  rw [count_factor, cfDen]
  split
  · norm_num
  · split <;> norm_num

theorem lastName_append (p : List String) (n : String) : lastName (p ++ [n]) = n := by
  simp [lastName]

theorem build_tree_meta (ignore : Bool) (path : List String) (fs : FSDir) (node : Node)
    (h : build_tree ignore path fs = .ok node) :
    node.path = path ∧ node.name = lastName path ∧ node.is_dir = true := by
  cases fs with
  | readErr e =>
    rw [build_tree] at h
    split at h
    · cases h
      exact ⟨rfl, rfl, rfl⟩
    · cases h
  | readOk entries =>
    rw [build_tree] at h
    rcases hscan : scanEntries ignore path entries with e | res
    · rw [hscan, except_bind_err] at h
      cases h
    · obtain ⟨cs, t, fc, ft⟩ := res
      rw [hscan, except_bind_ok] at h
      simp only [foldSmall_eq, Except.ok.injEq] at h
      subst h
      exact ⟨rfl, rfl, rfl⟩

theorem scan_paths (ignore : Bool) (path : List String) :
    ∀ (entries : List FSEntryRes) (cs : List Node) (t fc ft : Nat),
      scanEntries ignore path entries = .ok (cs, t, fc, ft) →
        ∀ c ∈ cs, c.path = path ++ [c.name] := by
  intro entries
  induction entries with
  | nil =>
    intro cs t fc ft h
    rw [scanEntries] at h
    cases h
    intro c hc
    cases hc
  | cons hd rest ih =>
    intro cs t fc ft h
    match hd with
    | .entryErr e =>
      rw [scanEntries] at h
      split at h
      · exact ih _ _ _ _ h
      · cases h
    | .entry (.symlink n) =>
      rw [scanEntries] at h
      exact ih _ _ _ _ h
    | .entry (.file n sz) =>
      rw [scanEntries] at h
      rcases hscan : scanEntries ignore path rest with e | res
      · rw [hscan, except_bind_err] at h
        cases h
      · obtain ⟨cs', t', fc', ft'⟩ := res
        rw [hscan, except_bind_ok] at h
        simp only [Except.ok.injEq, Prod.mk.injEq] at h
        obtain ⟨h1, _, _, _⟩ := h
        subst h1
        intro c hc
        rcases List.mem_cons.1 hc with rfl | hc'
        · rfl
        · exact ih _ _ _ _ hscan c hc'
    | .entry (.dir n c0) =>
      rw [scanEntries] at h
      rcases hchild : build_tree ignore (path ++ [n]) c0 with e | child
      · rw [hchild, except_bind_err] at h
        cases h
      · rw [hchild, except_bind_ok] at h
        rcases hscan : scanEntries ignore path rest with e | res
        · rw [hscan, except_bind_err] at h
          cases h
        · obtain ⟨cs', t', fc', ft'⟩ := res
          rw [hscan, except_bind_ok] at h
          simp only [Except.ok.injEq, Prod.mk.injEq] at h
          obtain ⟨h1, _, _, _⟩ := h
          subst h1
          intro c hc
          rcases List.mem_cons.1 hc with rfl | hc'
          · obtain ⟨hp, hn, _⟩ := build_tree_meta ignore (path ++ [n]) c0 c hchild
            rw [hp, hn, lastName_append]
          · exact ih _ _ _ _ hscan c hc'

theorem scan_file_stats (ignore : Bool) (path : List String) :
    ∀ (entries : List FSEntryRes) (cs : List Node) (t fc ft : Nat),
      scanEntries ignore path entries = .ok (cs, t, fc, ft) →
        fc = (cs.filter fun c => !c.is_dir).length
          ∧ ft = ((cs.filter fun c => !c.is_dir).map Node.size).sum := by
  intro entries
  induction entries with
  | nil =>
    intro cs t fc ft h
    rw [scanEntries] at h
    cases h
    exact ⟨rfl, rfl⟩
  | cons hd rest ih =>
    intro cs t fc ft h
    match hd with
    | .entryErr e =>
      rw [scanEntries] at h
      split at h
      · exact ih _ _ _ _ h
      · cases h
    | .entry (.symlink n) =>
      rw [scanEntries] at h
      exact ih _ _ _ _ h
    | .entry (.file n sz) =>
      rw [scanEntries] at h
      rcases hscan : scanEntries ignore path rest with e | res
      · rw [hscan, except_bind_err] at h
        cases h
      · obtain ⟨cs', t', fc', ft'⟩ := res
        rw [hscan, except_bind_ok] at h
        simp only [Except.ok.injEq, Prod.mk.injEq] at h
        obtain ⟨h1, _, h3, h4⟩ := h
        obtain ⟨ih1, ih2⟩ := ih _ _ _ _ hscan
        subst h1
        rw [List.filter_cons]
        simp only [Bool.not_false, if_true]
        constructor
        · simp only [List.length_cons]
          omega
        · simp only [List.map_cons, List.sum_cons]
          omega
    | .entry (.dir n c0) =>
      rw [scanEntries] at h
      rcases hchild : build_tree ignore (path ++ [n]) c0 with e | child
      · rw [hchild, except_bind_err] at h
        cases h
      · rw [hchild, except_bind_ok] at h
        rcases hscan : scanEntries ignore path rest with e | res
        · rw [hscan, except_bind_err] at h
          cases h
        · obtain ⟨cs', t', fc', ft'⟩ := res
          rw [hscan, except_bind_ok] at h
          simp only [Except.ok.injEq, Prod.mk.injEq] at h
          obtain ⟨h1, _, h3, h4⟩ := h
          obtain ⟨ih1, ih2⟩ := ih _ _ _ _ hscan
          subst h1
          obtain ⟨_, _, hdir⟩ := build_tree_meta ignore (path ++ [n]) c0 child hchild
          have hfilter : (child :: cs').filter (fun c => !c.is_dir)
              = cs'.filter fun c => !c.is_dir := by
            rw [List.filter_cons, hdir]
            simp
          rw [hfilter]
          exact ⟨by omega, by omega⟩

/-- C5: at every directory level with at least one direct file child the
threshold is `max(1024, total_size·count_factor, average_file_size·0.2)`
with `count_factor = 0.01` for at most `50` files, `0.005` for `51`–`200`
and `0.001` above `200`, the average taken over that level's direct file
children only (`file_count`/`file_total_size` count exactly the
non-directory children); every direct file child strictly below the
threshold is folded into the "Прочее" accumulator and removed from the
children, while directories and files at or above the threshold are
kept. -/
theorem C5_threshold_aggregation :
    (∀ fc : Nat, fc ≤ 50 → count_factor fc = 1/100)
    ∧ (∀ fc : Nat, 51 ≤ fc → fc ≤ 200 → count_factor fc = 5/1000)
    ∧ (∀ fc : Nat, 200 < fc → count_factor fc = 1/1000)
    ∧ (∀ fc total ft : Nat, 0 < fc →
        threshold fc total ft =
          ⌊max (1024 : ℚ) (max ((total : ℚ) * count_factor fc)
            ((ft : ℚ) / (fc : ℚ) * (2/10)))⌋₊)
    ∧ (∀ (ignore : Bool) (path : List String) (entries : List FSEntryRes)
          (cs : List Node) (t fc ft : Nat),
        scanEntries ignore path entries = .ok (cs, t, fc, ft) →
          fc = (cs.filter fun c => !c.is_dir).length
            ∧ ft = ((cs.filter fun c => !c.is_dir).map Node.size).sum)
    ∧ (∀ (ignore : Bool) (path : List String) (entries : List FSEntryRes)
          (cs : List Node) (t fc ft : Nat) (node : Node),
        scanEntries ignore path entries = .ok (cs, t, fc, ft) →
        build_tree ignore path (.readOk entries) = .ok node →
        ∀ c ∈ cs,
          ((c.is_dir = true ∨ threshold fc t ft ≤ c.size) → c ∈ node.children)
          ∧ (c.is_dir = false → c.size < threshold fc t ft → c ∉ node.children)) := by
  refine ⟨?_, ?_, ?_, ?_, ?_, ?_⟩
  · intro fc h
    rw [count_factor, if_neg (by omega), if_neg (by omega)]
  · intro fc h1 h2
    rw [count_factor, if_neg (by omega), if_pos (by omega)]
  · intro fc h
    rw [count_factor, if_pos h]
  · intro fc total ft hfc
    have hfc0 : (fc : ℚ) ≠ 0 := by positivity
    have hd : (0:Nat) < cfDen fc := by
      rw [cfDen]
      split
      · norm_num
      · split <;> norm_num
    have h1 : (total : ℚ) * count_factor fc = (total : ℚ) / ((cfDen fc : ℕ) : ℚ) := by
      rw [count_factor_eq_inv_cfDen, div_eq_mul_inv]
    have h2 : (ft : ℚ) / (fc : ℚ) * (2/10) = (ft : ℚ) / ((5 * fc : ℕ) : ℚ) := by
      push_cast
      field_simp
      ring
    have h1024 : ⌊(1024 : ℚ)⌋₊ = 1024 := by norm_num
    rw [threshold, if_pos hfc, h1, h2, nat_floor_max, nat_floor_max,
      Nat.floor_div_nat, Nat.floor_div_nat, h1024]
    simp only [Nat.floor_natCast]
    exact max_comm _ _
  · exact fun ignore path entries cs t fc ft h => scan_file_stats ignore path entries cs t fc ft h
  · intro ignore path entries cs t fc ft node hscan hb c hc
    rw [build_tree, hscan, except_bind_ok] at hb
    simp only [foldSmall_eq, Except.ok.injEq] at hb
    subst hb
    simp only
    set thr := threshold fc t ft with hthr
    have hcs : c ∈ sortDesc Node.size cs := (sortDesc_perm Node.size cs).mem_iff.2 hc
    have hpath : c.path = path ++ [c.name] := scan_paths ignore path entries cs t fc ft hscan c hc
    constructor
    · intro hkeep
      have hmem : c ∈ (sortDesc Node.size cs).filter fun c => c.is_dir || !decide (c.size < thr) := by
        rw [List.mem_filter]
        refine ⟨hcs, ?_⟩
        rcases hkeep with h | h
        · rw [h]; rfl
        · have : ¬c.size < thr := by omega
          simp [this]
      split
      · exact List.mem_append_left _ hmem
      · exact hmem
    · intro hfile hsmall hmem
      have hnotkept : c ∉ (sortDesc Node.size cs).filter fun c => c.is_dir || !decide (c.size < thr) := by
        rw [List.mem_filter]
        rintro ⟨-, hpred⟩
        rw [hfile] at hpred
        simp [hsmall] at hpred
      split at hmem
      · rcases List.mem_append.1 hmem with h | h
        · exact hnotkept h
        · rw [List.mem_singleton] at h
          rw [h] at hpath
          simp only at hpath
          have h2 := congrArg List.length hpath
          simp at h2
      · exact hnotkept hmem

/-- C5 witness: the tier boundaries at `50`, `51`, `200`, `201` files and
the closed-form threshold at a concrete level. -/
theorem C5_threshold_aggregation_witness :
    count_factor 50 = 1/100 ∧ count_factor 51 = 5/1000 ∧ count_factor 200 = 5/1000
      ∧ count_factor 201 = 1/1000
      ∧ threshold 2 2800 800 =
          ⌊max (1024 : ℚ) (max ((2800 : ℚ) * count_factor 2)
            ((800 : ℚ) / (2 : ℚ) * (2/10)))⌋₊ :=
  ⟨C5_threshold_aggregation.1 50 (by decide),
   C5_threshold_aggregation.2.1 51 (by decide) (by decide),
   C5_threshold_aggregation.2.1 200 (by decide) (by decide),
   C5_threshold_aggregation.2.2.1 201 (by decide),
   C5_threshold_aggregation.2.2.2.1 2 2800 800 (by decide)⟩

/-! ## C4: mouse-move hit testing -/

theorem find_first {α : Type} (pred : α → Bool) (p : α) (l2 : List α) :
    ∀ l1 : List α, (∀ q ∈ l1, pred q = false) → pred p = true →
      (l1 ++ p :: l2).find? pred = some p := by
  intro l1
  induction l1 with
  | nil =>
    intro _ hp
    exact List.find?_cons_of_pos l2 hp
  | cons a l ih =>
    intro hm hp
    rw [List.cons_append, List.find?_cons_of_neg _ (by simp [hm a (by simp)])]
    exact ih (fun q hq => hm q (by simp [hq])) hp

/-- C4 (amended): on every mouse move, if the cursor lies (after
translating each cached rectangle by `(-offset_x, -offset_y)`) inside
some cached rectangle, `selected` becomes the node path of the first
such rectangle in cache order; if it lies inside none, `selected` is
cleared to `none` (not left unchangedics). -/
theorem C4_hit_test (app : App) (col row : Nat) :
    ((∀ p ∈ app.layout, hitTest app.offset_x app.offset_y p.1 col row = false) →
      (onMouseMove app col row).selected = none)
    ∧ (∀ (l1 : List (LRect × Node)) (p : LRect × Node) (l2 : List (LRect × Node)),
        app.layout = l1 ++ p :: l2 →
        (∀ q ∈ l1, hitTest app.offset_x app.offset_y q.1 col row = false) →
        hitTest app.offset_x app.offset_y p.1 col row = true →
        (onMouseMove app col row).selected = some p.2.path) := by
  constructor
  · intro h
    have hfind : app.layout.find?
        (fun q => hitTest app.offset_x app.offset_y q.1 col row) = none :=
      List.find?_eq_none.2 (fun a ha => by simp [h a ha])
    simp [onMouseMove, App.get_node_at, hfind]
  · intro l1 p l2 hsplit hmiss hhit
    have hfind : app.layout.find?
        (fun q => hitTest app.offset_x app.offset_y q.1 col row) = some p := by
      rw [hsplit]
      exact find_first _ p l2 l1 hmiss hhit
    simp [onMouseMove, App.get_node_at, hfind]

/-- C4 witness: a hit on the second cached rectangle selects its node's
path; a miss clears the selection. -/
theorem C4_hit_test_witness :
    (onMouseMove wHitApp 8 2).selected = some ["r", "b"]
      ∧ (onMouseMove wHitApp 20 20).selected = none :=
  ⟨(C4_hit_test wHitApp 8 2).2 [(⟨0, 0, 7, 10⟩, wlay1)] (⟨7, 0, 3, 10⟩, wlay2) []
      rfl (by decide) (by decide),
   (C4_hit_test wHitApp 20 20).1 (by decide)⟩

/-- C4 counterexample: with a selection present and a cursor that hits no
cached rectangle, the mouse-move handler clears `selected` to `none`
instead of leaving it unchanged, contradicting the claim's miss clause. -/
theorem C4_counterexample :
    (∀ p ∈ cMissApp.layout, hitTest cMissApp.offset_x cMissApp.offset_y p.1 0 0 = false)
    ∧ cMissApp.selected = some ["r", "a"]
    ∧ (onMouseMove cMissApp 0 0).selected = none
    ∧ (onMouseMove cMissApp 0 0).selected ≠ cMissApp.selected := by
  refine ⟨?_, rfl, rfl, ?_⟩
  · intro p hp
    cases hp
  · intro h
    cases h

/-! ## C7: the zoom/navigate-up round trip -/

theorem attach_filter_isEmpty (l : List Node) (pred : Node → Bool)
    (h : l.filter pred = []) :
    (l.attach.filter fun c => pred c.1).isEmpty = true := by
  simp [List.filter_attach, h]

/-- If no child has positive size (or there are no children), one
`layout_tree` call returns the single pair `(area, node)`. -/
theorem layout_tree_of_no_pos (node : Node) (area : LRect) (hv : Bool)
    (h : node.children.filter (fun c => decide (0 < c.size)) = []) :
    layout_tree node area hv = [(area, node)] := by
  rw [layout_tree.eq_def]
  split
  · rfl
  · rw [if_pos (attach_filter_isEmpty node.children _ h)]

/-- C7 (amended): in Normal-view, activating a selected directory with at
least one child and then navigating up restores the prior `current_dir`
with offsets `(0,0)` — provided the activated directory's path is a
direct path-child of the prior `current_dir` (zooming into a deeper
selectable directory, or into the zoom root itself, lands elsewhere). -/
theorem C7_round_trip (app : App) (selPath : List String) (node : Node)
    (hscroll : app.scroll_mode = false)
    (hsel : app.selected = some selPath)
    (hfind : app.find_node selPath = some node)
    (hdir : node.is_dir = true)
    (hch : node.children.isEmpty = false)
    (hparent : parentPath node.path = some app.current_dir) :
    (onLeft (onEnter app)).current_dir = app.current_dir
      ∧ (onLeft (onEnter app)).offset_x = 0
      ∧ (onLeft (onEnter app)).offset_y = 0 := by
  have h1 : onEnter app =
      { app with
          current_dir := node.path, offset_x := 0, offset_y := 0,
          layout_dirty := true } := by
    simp [onEnter, hsel, hfind, hdir, hch]
  rw [h1, onLeft]
  simp [hscroll, hparent]

/-- C7 witness: zooming from `r` into its direct child directory `b` and
navigating up returns to `r` with offsets `(0,0)`. -/
theorem C7_round_trip_witness :
    (onLeft (onEnter w7app)).current_dir = w7app.current_dir
      ∧ (onLeft (onEnter w7app)).offset_x = 0
      ∧ (onLeft (onEnter w7app)).offset_y = 0 :=
  C7_round_trip w7app ["r", "b"] w7b rfl rfl rfl rfl rfl rfl

/-- C7 counterexample: with every child of the zoom root at size zero the
cached layout is the root's own rectangle, so the mouse selects the zoom
root itself; activating it (a directory with one child) keeps
`current_dir = ["r"]`, and navigating up then moves to the parent `[]` —
the prior `current_dir` `["r"]` is not restored.  This refutes the claim
for arbitrary selectable directories. -/
theorem C7_counterexample :
    (onMouseMove (c7app.ensure_layout c7area) 0 0).selected = some ["r"]
    ∧ (App.find_node (onMouseMove (c7app.ensure_layout c7area) 0 0) ["r"]
        = some c7root)
    ∧ c7root.is_dir = true
    ∧ c7root.children.isEmpty = false
    ∧ (onMouseMove (c7app.ensure_layout c7area) 0 0).current_dir = ["r"]
    ∧ (onLeft (onEnter (onMouseMove (c7app.ensure_layout c7area) 0 0))).current_dir
        = ([] : List String)
    ∧ ([] : List String) ≠ ["r"] := by
  have hlay : layout_tree c7root c7area true = [(c7area, c7root)] :=
    layout_tree_of_no_pos c7root c7area true rfl
  have he : c7app.ensure_layout c7area =
      { c7app with
          layout := [(c7area, c7root)], last_area_size := (80, 24),
          scroll_mode := false, layout_dirty := false } := by
    show { c7app with
        layout := layout_tree c7root c7area true, last_area_size := (80, 24),
        scroll_mode := false, layout_dirty := false } =
      { c7app with
        layout := [(c7area, c7root)], last_area_size := (80, 24),
        scroll_mode := false, layout_dirty := false }
    rw [hlay]
  rw [he]
  exact ⟨rfl, rfl, rfl, rfl, rfl, rfl, by decide⟩

/-! ## C8: scroll mode and the virtual canvas -/

/-- C8 (amended): Scroll-view holds exactly when the viewport width is
below `40` or the height below `20`; with the scroll flag set,
`recalculate_layout` lays the current node out against a square virtual
canvas of side `dynamicSize`, which equals `min (200 + 5·children) 5000`
for up to `13067` direct children — beyond that the `u16` arithmetic
`200 + count*5` wraps modulo `2^16` and the `5000` cap is not honoured
(the claim's "for every number of direct children" fails). -/
theorem recalc_scroll (app : App) (area : LRect) (h : app.scroll_mode = true) :
    (app.recalculate_layout area).layout =
      layout_tree ((app.find_node app.current_dir).getD app.root)
        ⟨0, 0,
          dynamicSize ((app.find_node app.current_dir).getD app.root).children.length,
          dynamicSize ((app.find_node app.current_dir).getD app.root).children.length⟩
        true := by
  rw [App.recalculate_layout]
  simp only [h]
  rfl

theorem C8_scroll_canvas :
    (∀ (app : App) (area : LRect),
      (app.ensure_layout area).scroll_mode
        = (decide (area.width < 40) || decide (area.height < 20)))
    ∧ (∀ (app : App) (area : LRect), app.scroll_mode = true →
        (app.recalculate_layout area).layout =
          layout_tree ((app.find_node app.current_dir).getD app.root)
            ⟨0, 0,
              dynamicSize ((app.find_node app.current_dir).getD app.root).children.length,
              dynamicSize ((app.find_node app.current_dir).getD app.root).children.length⟩
            true)
    ∧ (∀ (app : App) (area : LRect), app.scroll_mode = false →
        (app.recalculate_layout area).layout =
          layout_tree ((app.find_node app.current_dir).getD app.root) area true)
    ∧ (∀ count : Nat, count ≤ 13067 →
        dynamicSize count = min (200 + count * 5) 5000) := by
  refine ⟨?_, ?_, ?_, ?_⟩
  · intro app area
    rw [App.ensure_layout]
    split
    · rfl
    · rename_i hcond
      push_neg at hcond
      exact hcond.2.2
  · exact fun app area h => recalc_scroll app area h
  · intro app area h
    rw [App.recalculate_layout]
    simp only [h]
    rfl
  · intro count h
    rw [dynamicSize]
    have h1 : count % 65536 = count := Nat.mod_eq_of_lt (by omega)
    rw [h1]
    have h2 : count * 5 % 65536 = count * 5 := Nat.mod_eq_of_lt (by omega)
    rw [h2]
    have h3 : (200 + count * 5) % 65536 = 200 + count * 5 := Nat.mod_eq_of_lt (by omega)
    rw [h3]

/-- C8 witness: the scroll flag at an `80×24` viewport, the canvas size
at `2` children, and the normal-mode layout area. -/
theorem C8_scroll_canvas_witness :
    ((App.new wlayRoot).ensure_layout c7area).scroll_mode
        = (decide ((80:Nat) < 40) || decide ((24:Nat) < 20))
    ∧ dynamicSize 2 = min (200 + 2 * 5) 5000
    ∧ ((App.new wlayRoot).recalculate_layout c7area).layout =
        layout_tree (((App.new wlayRoot).find_node (App.new wlayRoot).current_dir).getD
          (App.new wlayRoot).root) c7area true :=
  ⟨C8_scroll_canvas.1 (App.new wlayRoot) c7area,
   C8_scroll_canvas.2.2.2 2 (by decide),
   C8_scroll_canvas.2.2.1 (App.new wlayRoot) c7area rfl⟩

/-- C8 counterexample: a directory with `13068` direct children.  The
claim's cap gives `min (200 + 13068·5) 5000 = 5000`, but the program's
`u16` expression wraps: `dynamicSize 13068 = (200 + 65340) % 65536 = 4`,
and `recalculate_layout` in scroll mode actually lays out against a
`4×4` canvas. -/
theorem C8_counterexample :
    dynamicSize 13068 = 4
    ∧ min (200 + 13068 * 5) 5000 = 5000
    ∧ bigRoot.children.length = 13068
    ∧ (bigApp.recalculate_layout c7area).layout = layout_tree bigRoot ⟨0, 0, 4, 4⟩ true
    ∧ (4 : Nat) ≠ 5000 := by
  have hlen : bigRoot.children.length = 13068 := List.length_replicate 13068 _
  refine ⟨by decide, by decide, hlen, ?_, by decide⟩
  have h4 := recalc_scroll bigApp c7area rfl
  rw [h4]
  have hfind : (bigApp.find_node bigApp.current_dir).getD bigApp.root = bigRoot := rfl
  rw [hfind, hlen]
  rw [show dynamicSize 13068 = 4 from by decide]

/-! ## Allocation lemmas for the layout engine (C3, C2, C10) -/

theorem insDesc_stable {α β : Type} [LinearOrder β] (k : α → β) (r : α → α → Prop)
    (x : α) : ∀ l : List α,
    l.Pairwise (fun a b => k b < k a ∨ (k b = k a ∧ r a b)) →
    (∀ y ∈ l, r x y) →
    (insDesc k x l).Pairwise (fun a b => k b < k a ∨ (k b = k a ∧ r a b)) := by
  intro l
  induction l with
  | nil =>
    intro _ _
    exact List.pairwise_singleton _ _
  | cons y ys ih =>
    intro hp hr
    rw [insDesc]
    split
    · rename_i hlt
      rw [List.pairwise_cons] at hp ⊢
      constructor
      · intro z hz
        rcases List.mem_cons.1 ((insDesc_perm k x ys).mem_iff.1 hz) with rfl | hzy
        · exact Or.inl hlt
        · exact hp.1 z hzy
      · exact ih hp.2 fun y hy => hr y (List.mem_cons_of_mem _ hy)
    · rename_i hnlt
      push_neg at hnlt
      rw [List.pairwise_cons]
      constructor
      · intro z hz
        rcases List.mem_cons.1 hz with rfl | hzy
        · rcases lt_or_eq_of_le hnlt with h | h
          · exact Or.inl h
          · exact Or.inr ⟨h, hr z (List.mem_cons_self _ _)⟩
        · rcases (List.pairwise_cons.1 hp).1 z hzy with h | ⟨h, _⟩
          · exact Or.inl (lt_of_lt_of_le h hnlt)
          · have hzx : k z ≤ k x := le_trans (le_of_eq h) hnlt
            rcases lt_or_eq_of_le hzx with h2 | h2
            · exact Or.inl h2
            · exact Or.inr ⟨h2, hr z (List.mem_cons_of_mem _ hzy)⟩
      · exact hp

theorem sortDesc_stable {α β : Type} [LinearOrder β] (k : α → β) (r : α → α → Prop) :
    ∀ l : List α, l.Pairwise r →
      (sortDesc k l).Pairwise (fun a b => k b < k a ∨ (k b = k a ∧ r a b)) := by
  intro l
  induction l with
  | nil =>
    intro _
    exact List.Pairwise.nil
  | cons x xs ih =>
    intro hp
    rw [List.pairwise_cons] at hp
    rw [sortDesc]
    exact insDesc_stable k r x (sortDesc k xs) (ih hp.2)
      (fun y hy => hp.1 y ((sortDesc_perm k xs).mem_iff.1 hy))

theorem div_add_div_le (a b c : Nat) : a / c + b / c ≤ (a + b) / c := by
  rcases Nat.eq_zero_or_pos c with rfl | hc
  · simp
  · rw [Nat.le_div_iff_mul_le hc, Nat.add_mul]
    have h1 : a / c * c ≤ a := Nat.div_mul_le_self a c
    have h2 : b / c * c ≤ b := Nat.div_mul_le_self b c
    omega

theorem sum_floor_le (total pd : Nat) : ∀ sizes : List Nat,
    (sizes.map fun s => s * pd / total).sum ≤ sizes.sum * pd / total := by
  intro sizes
  induction sizes with
  | nil => simp
  | cons s rest ih =>
    simp only [List.map_cons, List.sum_cons]
    calc s * pd / total + (rest.map fun s => s * pd / total).sum
        ≤ s * pd / total + rest.sum * pd / total := by omega
      _ ≤ (s * pd + rest.sum * pd) / total := div_add_div_le _ _ _
      _ = (s + rest.sum) * pd / total := by rw [Nat.add_mul]

theorem sum_floor_lower (total pd : Nat) (ht : 0 < total) : ∀ sizes : List Nat,
    (sizes.map fun s => s * pd).sum
      ≤ total * (sizes.map fun s => s * pd / total).sum + sizes.length * (total - 1) := by
  intro sizes
  induction sizes with
  | nil => simp
  | cons s rest ih =>
    simp only [List.map_cons, List.sum_cons, List.length_cons]
    have h1 : s * pd = total * (s * pd / total) + s * pd % total :=
      (Nat.div_add_mod _ _).symm
    have h2 : s * pd % total < total := Nat.mod_lt _ ht
    have h3 : total * (s * pd / total + (rest.map fun s => s * pd / total).sum)
        = total * (s * pd / total) + total * (rest.map fun s => s * pd / total).sum :=
      Nat.mul_add _ _ _
    have h4 : (rest.length + 1) * (total - 1)
        = rest.length * (total - 1) + (total - 1) := by ring
    rw [h3, h4]
    omega

theorem sum_map_mul_right (pd : Nat) : ∀ sizes : List Nat,
    (sizes.map fun s => s * pd).sum = sizes.sum * pd := by
  intro sizes
  induction sizes with
  | nil => simp
  | cons s rest ih =>
    simp only [List.map_cons, List.sum_cons, ih, Nat.add_mul]

theorem remainder_lt_len (total pd : Nat) (sizes : List Nat) (ht : 0 < total)
    (hsum : sizes.sum = total) (hne : sizes ≠ []) :
    pd < (sizes.map fun s => s * pd / total).sum + sizes.length := by
  have hlen : 1 ≤ sizes.length := by
    cases sizes
    · exact absurd rfl hne
    · simp
  have h1 := sum_floor_lower total pd ht sizes
  rw [sum_map_mul_right, hsum] at h1
  set F := (sizes.map fun s => s * pd / total).sum with hF
  set L := sizes.length with hL
  have h2 : L * (total - 1) + L = L * total := by
    have h3 : total - 1 + 1 = total := Nat.succ_pred_eq_of_pos ht
    calc L * (total - 1) + L = L * ((total - 1) + 1) := by ring
      _ = L * total := by rw [h3]
  have h4 : total * pd + L ≤ total * F + L * total := by omega
  have h5 : total * F + L * total = total * (F + L) := by ring
  have h6 : total * pd < total * (F + L) := by omega
  exact Nat.lt_of_mul_lt_mul_left h6

theorem allocated_le_pd (total pd : Nat) (sizes : List Nat) (hsum : sizes.sum = total) :
    (sizes.map fun s => s * pd / total).sum ≤ pd := by
  have h1 := sum_floor_le total pd sizes
  rw [hsum] at h1
  rcases Nat.eq_zero_or_pos total with h | h
  · calc (sizes.map fun s => s * pd / total).sum ≤ total * pd / total := h1
      _ = 0 := by rw [h]; simp
      _ ≤ pd := Nat.zero_le _
  · calc (sizes.map fun s => s * pd / total).sum ≤ total * pd / total := h1
      _ = pd := Nat.mul_div_cancel_left pd h

theorem sum_set_incr : ∀ (l : List Nat) (i : Nat), i < l.length →
    (l.set i (l.getD i 0 + 1)).sum = l.sum + 1 := by
  intro l
  induction l with
  | nil => intro i hi; cases hi
  | cons x xs ih =>
    intro i hi
    cases i with
    | zero => simp [List.set]; omega
    | succ n =>
      simp only [List.set, List.getD_cons_succ, List.sum_cons]
      rw [ih n (by simpa using hi)]
      omega

theorem grant_fold : ∀ (granted : List Nat) (l : List Nat),
    granted.Nodup → (∀ i ∈ granted, i < l.length) →
    (granted.foldl (fun l i => l.set i (l.getD i 0 + 1)) l).length = l.length
    ∧ (∀ j, j < l.length →
        (granted.foldl (fun l i => l.set i (l.getD i 0 + 1)) l).getD j 0
          = l.getD j 0 + (if j ∈ granted then 1 else 0))
    ∧ (granted.foldl (fun l i => l.set i (l.getD i 0 + 1)) l).sum
        = l.sum + granted.length := by
  intro granted
  induction granted with
  | nil =>
    intro l _ _
    exact ⟨rfl, fun j _ => by simp, by simp⟩
  | cons i rest ih =>
    intro l hnd hval
    have hi : i < l.length := hval i (List.mem_cons_self _ _)
    have hnd' : rest.Nodup := (List.nodup_cons.1 hnd).2
    have hni : i ∉ rest := (List.nodup_cons.1 hnd).1
    have hlen1 : (l.set i (l.getD i 0 + 1)).length = l.length := List.length_set _ _ _
    have hval' : ∀ j ∈ rest, j < (l.set i (l.getD i 0 + 1)).length := fun j hj =>
      hlen1 ▸ hval j (List.mem_cons_of_mem _ hj)
    obtain ⟨ih1, ih2, ih3⟩ := ih (l.set i (l.getD i 0 + 1)) hnd' hval'
    refine ⟨?_, ?_, ?_⟩
    · rw [List.foldl_cons, ih1, hlen1]
    · intro j hj
      rw [List.foldl_cons, ih2 j (hlen1 ▸ hj)]
      by_cases hji : j = i
      · subst hji
        have hset : (l.set j (l.getD j 0 + 1)).getD j 0 = l.getD j 0 + 1 := by
          rw [List.getD_eq_getElem?_getD, List.getElem?_set_self hj]
          rfl
        rw [hset]
        simp [hni]
      · have hset : (l.set i (l.getD i 0 + 1)).getD j 0 = l.getD j 0 := by
          rw [List.getD_eq_getElem?_getD, List.getElem?_set_ne (Ne.symm hji),
            ← List.getD_eq_getElem?_getD]
        rw [hset]
        simp [hji]
    · rw [List.foldl_cons, ih3, sum_set_incr l i hi, List.length_cons]
      omega

theorem childAlloc_spec (total pd : Nat) (sizes : List Nat)
    (hpd : pd ≤ 65535) (hsum : sizes.sum = total) :
    (childAlloc total pd sizes).length = sizes.length
    ∧ (∀ j, j < sizes.length →
        (childAlloc total pd sizes).getD j 0 = sizes.getD j 0 * pd / total
          ∨ (childAlloc total pd sizes).getD j 0 = sizes.getD j 0 * pd / total + 1)
    ∧ (childAlloc total pd sizes).sum
        = (sizes.map fun s => s * pd / total).sum
          + min (pd - (sizes.map fun s => s * pd / total).sum) sizes.length
    ∧ (∀ i j, i < sizes.length → j < sizes.length →
        (childAlloc total pd sizes).getD i 0 = sizes.getD i 0 * pd / total + 1 →
        (childAlloc total pd sizes).getD j 0 = sizes.getD j 0 * pd / total →
        (sizes.getD j 0 * pd % total < sizes.getD i 0 * pd % total
          ∨ (sizes.getD j 0 * pd % total = sizes.getD i 0 * pd % total ∧ i < j))) := by
  classical
  have hcap : (sizes.map fun s => min (s * pd / total) 65535)
      = sizes.map fun s => s * pd / total := by
    apply List.map_congr_left
    intro s hs
    have h1 : s ≤ total := hsum ▸ List.single_le_sum (fun x _ => Nat.zero_le x) s hs
    have h2 : s * pd / total ≤ total * pd / total :=
      Nat.div_le_div_right (Nat.mul_le_mul_right pd h1)
    have h3 : total * pd / total ≤ pd := by
      rcases Nat.eq_zero_or_pos total with h | h
      · rw [h]
        simp
      · rw [Nat.mul_div_cancel_left pd h]
    exact min_eq_left (by omega)
  set F : List Nat := sizes.map fun s => s * pd / total with hF
  have hFlen : F.length = sizes.length := List.length_map _ _
  have hFget : ∀ j, j < sizes.length → F.getD j 0 = sizes.getD j 0 * pd / total := by
    intro j hj
    rw [List.getD_eq_getElem _ _ (hFlen ▸ hj), List.getD_eq_getElem _ _ hj]
    exact List.getElem_map _
  set fractional : List (Nat × Nat) := sizes.enum.map fun p => (p.1, p.2 * pd % total)
    with hfrac
  set fracSorted := sortDesc Prod.snd fractional with hfs
  set remainder := pd - F.sum with hrem
  set granted := (fracSorted.take remainder).map Prod.fst with hgr
  have hreduce : childAlloc total pd sizes
      = granted.foldl (fun l i => l.set i (l.getD i 0 + 1)) F := by
    simp only [childAlloc]
    rw [hcap]
  have hfst : fractional.map Prod.fst = List.range sizes.length := by
    rw [hfrac, List.map_map]
    exact List.enum_map_fst sizes
  have hlen_frac : fractional.length = sizes.length := by
    rw [hfrac, List.length_map, List.enum_length]
  have hmem_frac : ∀ q ∈ fractional,
      q.2 = sizes.getD q.1 0 * pd % total ∧ q.1 < sizes.length := by
    intro q hq
    rw [hfrac] at hq
    obtain ⟨p, hp, rfl⟩ := List.mem_map.1 hq
    have hp2 := List.mem_enum_iff_getElem?.1 hp
    have hlt : p.1 < sizes.length := by
      by_contra hge
      rw [List.getElem?_eq_none (by omega)] at hp2
      cases hp2
    have hval : sizes.getD p.1 0 = p.2 := by
      rw [List.getD_eq_getElem?_getD, hp2]
      rfl
    exact ⟨by rw [hval], hlt⟩
  have hperm : fracSorted.Perm fractional := sortDesc_perm _ _
  have hpair_input : fractional.Pairwise (fun a b => a.1 < b.1) := by
    have h1 := List.pairwise_lt_range sizes.length
    rw [← hfst] at h1
    exact List.pairwise_map.1 h1
  have hQ : fracSorted.Pairwise
      (fun a b => b.2 < a.2 ∨ (b.2 = a.2 ∧ a.1 < b.1)) :=
    sortDesc_stable Prod.snd _ fractional hpair_input
  have hnodup_fst : (fracSorted.map Prod.fst).Nodup :=
    ((hperm.map Prod.fst).nodup_iff).2 (hfst ▸ List.nodup_range sizes.length)
  have hnodup_granted : granted.Nodup := by
    rw [hgr, List.map_take]
    exact (List.take_sublist _ _).nodup hnodup_fst
  have hmem_granted : ∀ i ∈ granted, ∃ q ∈ fracSorted, q.1 = i ∧ q ∈ fracSorted.take remainder := by
    intro i hi
    rw [hgr] at hi
    obtain ⟨q, hq, rfl⟩ := List.mem_map.1 hi
    exact ⟨q, (List.take_sublist _ _).subset hq, rfl, hq⟩
  have hval_granted : ∀ i ∈ granted, i < sizes.length := by
    intro i hi
    obtain ⟨q, hq, rfl, _⟩ := hmem_granted i hi
    exact (hmem_frac q (hperm.subset hq)).2
  have hlen_granted : granted.length = min remainder sizes.length := by
    rw [hgr, List.length_map, List.length_take, hperm.length_eq, hlen_frac]
  obtain ⟨hg1, hg2, hg3⟩ := grant_fold granted F hnodup_granted
    (fun i hi => hFlen ▸ hval_granted i hi)
  have hmark : ∀ j, j < sizes.length →
      (childAlloc total pd sizes).getD j 0
        = sizes.getD j 0 * pd / total + (if j ∈ granted then 1 else 0) := by
    intro j hj
    rw [hreduce, hg2 j (hFlen ▸ hj), hFget j hj]
  refine ⟨?_, ?_, ?_, ?_⟩
  · rw [hreduce, hg1, hFlen]
  · intro j hj
    rw [hmark j hj]
    split
    · exact Or.inr rfl
    · exact Or.inl (by omega)
  · rw [hreduce, hg3, hlen_granted]
  · intro i j hi hj hmi hmj
    rw [hmark i hi] at hmi
    rw [hmark j hj] at hmj
    have higr : i ∈ granted := by
      by_contra hno
      rw [if_neg hno] at hmi
      omega
    have hjgr : j ∉ granted := by
      intro hyes
      rw [if_pos hyes] at hmj
      omega
    obtain ⟨qi, hqi_mem, hqi1, hqi_take⟩ := hmem_granted i higr
    -- j occurs in fracSorted (its index list is a permutation of range)
    have hj_in : ∃ qj ∈ fracSorted, qj.1 = j := by
      have h1 : j ∈ fracSorted.map Prod.fst := by
        rw [(hperm.map Prod.fst).mem_iff, hfst]
        exact List.mem_range.2 hj
      obtain ⟨qj, hqj, rfl⟩ := List.mem_map.1 h1
      exact ⟨qj, hqj, rfl⟩
    obtain ⟨qj, hqj_mem, hqj1⟩ := hj_in
    have hqj_mem2 : qj ∈ fracSorted.take remainder ++ fracSorted.drop remainder := by
      rw [List.take_append_drop]
      exact hqj_mem
    have hqj_drop : qj ∈ fracSorted.drop remainder := by
      rcases List.mem_append.1 hqj_mem2 with h | h
      · exact absurd (by rw [hgr]; exact List.mem_map.2 ⟨qj, h, hqj1⟩) hjgr
      · exact h
    have hQ2 := (List.pairwise_append.1
      ((List.take_append_drop remainder fracSorted).symm ▸ hQ)).2.2
    have hrel := hQ2 qi hqi_take qj hqj_drop
    have hvi := (hmem_frac qi (hperm.subset hqi_mem)).1
    have hvj := (hmem_frac qj (hperm.subset hqj_mem)).1
    rw [hqi1] at hvi
    rw [hqj1] at hvj
    rcases hrel with h | ⟨h1, h2⟩
    · exact Or.inl (by rw [← hvi, ← hvj]; exact h)
    · exact Or.inr ⟨by rw [← hvi, ← hvj, h1], by rw [← hqi1, ← hqj1]; exact h2⟩

theorem share_bridge (total pd s : Nat) (ht : 0 < total) :
    ⌊(s : ℚ) / (total : ℚ) * (pd : ℚ)⌋₊ = s * pd / total
    ∧ Int.fract ((s : ℚ) / (total : ℚ) * (pd : ℚ))
        = ((s * pd % total : Nat) : ℚ) / (total : ℚ) := by
  have htq : (total : ℚ) ≠ 0 := by positivity
  have h1 : (s : ℚ) / (total : ℚ) * (pd : ℚ) = ((s * pd : Nat) : ℚ) / (total : ℚ) := by
    push_cast
    ring
  have hr : ((s * pd % total : Nat) : ℚ) / (total : ℚ) < 1 := by
    rw [div_lt_one (by positivity)]
    exact_mod_cast Nat.mod_lt _ ht
  constructor
  · rw [h1, Nat.floor_div_nat, Nat.floor_natCast]
  · rw [h1]
    have hdecomp : ((s * pd : Nat) : ℚ) / (total : ℚ)
        = ((s * pd / total : Nat) : ℤ) + ((s * pd % total : Nat) : ℚ) / (total : ℚ) := by
      have h3 : (s * pd : Nat) = total * (s * pd / total) + s * pd % total :=
        (Nat.div_add_mod _ _).symm
      conv_lhs => rw [h3]
      push_cast
      rw [add_div]
      congr 1
      · rw [mul_comm, mul_div_assoc, div_self htq, mul_one]
        norm_cast
    rw [hdecomp, Int.fract_int_add]
    exact Int.fract_eq_self.2 ⟨by positivity, hr⟩

/-- C3: `layout_tree`'s integer cell allocation is largest-remainder
rounding.  Each child's real-valued share `(size/total)·primary_dim` is
floored (realised exactly as `size*pd/total` with fractional part
`(size*pd mod total)/total`); the remainder `pd − Σ floors` is
distributed one extra cell each to the children with the largest
fractional parts, ties keeping pre-sort (index) order: a granted child's
fractional part strictly exceeds every ungranted child's, or equals it
with a smaller index.  In particular shares `50/7 ≈ 7.142857` and
`20/7 ≈ 2.857143` of `10` floor to `7` and `2` and the extra cell goes to
the larger-fractional child: `childAlloc 70 10 [50,20] = [7,3]`. -/
theorem C3_largest_remainder :
    (⌊(50 : ℚ) / 70 * 10⌋₊ = 7 ∧ ⌊(20 : ℚ) / 70 * 10⌋₊ = 2
      ∧ Int.fract ((50 : ℚ) / 70 * 10) = 10/70
      ∧ Int.fract ((20 : ℚ) / 70 * 10) = 60/70
      ∧ childAlloc 70 10 [50, 20] = [7, 3])
    ∧ (∀ total pd s : Nat, 0 < total →
        ⌊(s : ℚ) / (total : ℚ) * (pd : ℚ)⌋₊ = s * pd / total
        ∧ Int.fract ((s : ℚ) / (total : ℚ) * (pd : ℚ))
            = ((s * pd % total : Nat) : ℚ) / (total : ℚ))
    ∧ (∀ (total pd : Nat) (sizes : List Nat), pd ≤ 65535 → sizes.sum = total →
        (childAlloc total pd sizes).length = sizes.length
        ∧ (∀ j, j < sizes.length →
            (childAlloc total pd sizes).getD j 0 = sizes.getD j 0 * pd / total
              ∨ (childAlloc total pd sizes).getD j 0 = sizes.getD j 0 * pd / total + 1)
        ∧ (childAlloc total pd sizes).sum
            = (sizes.map fun s => s * pd / total).sum
              + min (pd - (sizes.map fun s => s * pd / total).sum) sizes.length
        ∧ (∀ i j, i < sizes.length → j < sizes.length →
            (childAlloc total pd sizes).getD i 0 = sizes.getD i 0 * pd / total + 1 →
            (childAlloc total pd sizes).getD j 0 = sizes.getD j 0 * pd / total →
            (sizes.getD j 0 * pd % total < sizes.getD i 0 * pd % total
              ∨ (sizes.getD j 0 * pd % total = sizes.getD i 0 * pd % total ∧ i < j)))) := by
  refine ⟨⟨?_, ?_, ?_, ?_, by decide⟩, ?_, ?_⟩
  · have h := (share_bridge 70 10 50 (by norm_num)).1
    norm_num at h ⊢
    convert h using 2
  · have h := (share_bridge 70 10 20 (by norm_num)).1
    norm_num at h ⊢
    convert h using 2
  · have h := (share_bridge 70 10 50 (by norm_num)).2
    norm_num at h ⊢
    convert h using 2
  · have h := (share_bridge 70 10 20 (by norm_num)).2
    norm_num at h ⊢
    convert h using 2
  · exact fun total pd s ht => share_bridge total pd s ht
  · exact fun total pd sizes hpd hsum => childAlloc_spec total pd sizes hpd hsum

/-- C3 witness: the rounding clauses at the concrete example
`total = 70`, `pd = 10`, `sizes = [50, 20]`. -/
theorem C3_largest_remainder_witness :
    (⌊((50 : Nat) : ℚ) / ((70 : Nat) : ℚ) * ((10 : Nat) : ℚ)⌋₊ = 50 * 10 / 70)
    ∧ (childAlloc 70 10 [50, 20]).length = [50, 20].length
    ∧ (childAlloc 70 10 [50, 20]).sum
        = ([50, 20].map fun s => s * 10 / 70).sum
          + min (10 - ([50, 20].map fun s => s * 10 / 70).sum) [50, 20].length :=
  ⟨(C3_largest_remainder.2.1 70 10 50 (by decide)).1,
   (C3_largest_remainder.2.2 70 10 [50, 20] (by decide) (by decide)).1,
   (C3_largest_remainder.2.2 70 10 [50, 20] (by decide) (by decide)).2.2.1⟩

/-! ## Structure of one `layout_tree` level (C2, C10) -/

theorem attach_filter_map_val (l : List Node) (pred : Node → Bool) :
    ((l.attach.filter fun c => pred c.1).map Subtype.val) = l.filter pred := by
  rw [List.filter_attach, List.map_map]
  have h : (Subtype.val ∘ Subtype.map id fun _ h => List.mem_of_mem_filter h)
      = (Subtype.val : {x // x ∈ l.filter pred} → Node) := rfl
  rw [h, List.attach_map_subtype_val]

theorem placeLoop_map {α β : Type} (f : α → β) (hv : Bool) (area : LRect) (pd : Nat) :
    ∀ (l : List (α × Nat)) (pos : Nat),
      placeLoop hv area pd (l.map fun q => (f q.1, q.2)) pos
        = (placeLoop hv area pd l pos).map fun q => (f q.1, q.2) := by
  intro l
  induction l with
  | nil => intro pos; rfl
  | cons hd tl ih =>
    intro pos
    obtain ⟨a, sz⟩ := hd
    rw [List.map_cons]
    rw [placeLoop, placeLoop]
    simp only
    repeat' split
    all_goals first
      | exact ih pos
      | rfl
      | rw [List.map_cons, ih]

theorem levelPlaced_eq (node : Node) (area : LRect) (hv : Bool) :
    levelPlaced node area hv
      = (placeLoop hv area (primaryDim area hv)
          ((node.children.attach.filter fun c => decide (0 < c.1.size)).zip
            (childAlloc node.size (primaryDim area hv)
              ((node.children.attach.filter fun c => decide (0 < c.1.size)).map
                fun c => c.1.size)))
          (primaryStart area hv)).map fun q => (q.1.1, q.2) := by
  rw [levelPlaced, levelAlloc, posChildren]
  rw [← attach_filter_map_val node.children fun c => decide (0 < c.size)]
  rw [List.map_map, List.zip_map_left]
  rw [show (Prod.map (Subtype.val : {x // x ∈ node.children} → Node) id)
      = (fun q : {x // x ∈ node.children} × Nat => ((q.1 : Node), q.2)) from rfl]
  rw [placeLoop_map]
  rfl

theorem layout_tree_eq (node : Node) (area : LRect) (hv : Bool) :
    layout_tree node area hv =
      if (node.children.isEmpty || decide (area.width < 3)
          || decide (area.height < 3)) = true then [(area, node)]
      else if (posChildren node).isEmpty = true then [(area, node)]
      else
        donate hv area
          (primaryStart area hv
            + ((levelPlaced node area hv).map fun p => primSize p.2 hv).sum)
          ((levelPlaced node area hv).flatMap fun p => layout_tree p.1 p.2 (!hv)) := by
  have hiso : (node.children.attach.filter fun c => decide (0 < c.1.size)).isEmpty
      = (posChildren node).isEmpty := by
    rw [posChildren, ← attach_filter_map_val node.children fun c => decide (0 < c.size)]
    cases node.children.attach.filter fun c => decide (0 < c.1.size) <;> rfl
  rw [layout_tree.eq_def]
  simp only
  rw [hiso]
  split
  · rfl
  · split
    · rfl
    · rw [levelPlaced_eq, List.map_map, List.flatMap_map]
      rfl

theorem primSize_mkStrip (area : LRect) (hv : Bool) (pos w : Nat) :
    primSize (mkStrip area hv pos w) hv = w := by
  cases hv <;> rfl

theorem rectPrimStart_mkStrip (area : LRect) (hv : Bool) (pos w : Nat) :
    rectPrimStart (mkStrip area hv pos w) hv = pos := by
  cases hv <;> rfl

theorem placeLoop_props (hv : Bool) (area : LRect) (pd : Nat) :
    ∀ (l : List (Node × Nat)) (pos : Nat), pos ≤ farEdge area hv →
      consecFrom hv pos (placeLoop hv area pd l pos) = true
      ∧ (∀ q ∈ placeLoop hv area pd l pos,
          3 ≤ primSize q.2 hv
          ∧ rectPrimStart q.2 hv + primSize q.2 hv ≤ farEdge area hv
          ∧ (hv = true → q.2.y = area.y ∧ q.2.height = area.height)
          ∧ (hv = false → q.2.x = area.x ∧ q.2.width = area.width))
      ∧ pos + ((placeLoop hv area pd l pos).map fun q => primSize q.2 hv).sum
          ≤ farEdge area hv
      ∧ (placeLoop hv area pd l pos).length ≤ l.length := by
  intro l
  induction l with
  | nil =>
    intro pos hpos
    refine ⟨rfl, ?_, ?_, ?_⟩
    · intro q hq
      cases hq
    · simpa [placeLoop] using hpos
    · simp [placeLoop]
  | cons hd tl ih =>
    intro pos hpos
    obtain ⟨a, sz⟩ := hd
    rw [placeLoop]
    simp only
    set s1 := if sz < 3 ∧ 3 ≤ pd then 3 else sz with hs1
    split
    · have h := ih pos hpos
      exact ⟨h.1, h.2.1, h.2.2.1, le_trans h.2.2.2 (by simp)⟩
    · split
      · refine ⟨rfl, ?_, ?_, ?_⟩
        · intro q hq
          cases hq
        · simpa using hpos
        · simp
      · rename_i hne hge
        set w := s1 ⊓ (farEdge area hv - pos) with hw
        have h3 : 3 ≤ w := by omega
        have hwf : pos + w ≤ farEdge area hv := by
          have hmin : w ≤ farEdge area hv - pos := min_le_right _ _
          omega
        obtain ⟨ih1, ih2, ih3, ih4⟩ := ih (pos + w) hwf
        refine ⟨?_, ?_, ?_, ?_⟩
        · rw [consecFrom]
          simp only [Bool.and_eq_true, decide_eq_true_eq]
          exact ⟨rectPrimStart_mkStrip area hv pos w,
            by rw [primSize_mkStrip]; exact ih1⟩
        · intro q hq
          rcases List.mem_cons.1 hq with rfl | hq2
          · refine ⟨?_, ?_, ?_, ?_⟩
            · rw [primSize_mkStrip]
              exact h3
            · rw [primSize_mkStrip, rectPrimStart_mkStrip]
              exact hwf
            · intro hhv
              subst hhv
              exact ⟨rfl, rfl⟩
            · intro hhv
              subst hhv
              exact ⟨rfl, rfl⟩
          · exact ih2 q hq2
        · simp only [List.map_cons, List.sum_cons, primSize_mkStrip]
          omega
        · simp only [List.length_cons]
          omega

theorem placeLoop_complete (hv : Bool) (area : LRect) (pd : Nat) :
    ∀ (l : List (Node × Nat)) (pos : Nat), pos ≤ farEdge area hv →
      (placeLoop hv area pd l pos).length = l.length →
      min (farEdge area hv) (pos + (l.map Prod.snd).sum)
        ≤ pos + ((placeLoop hv area pd l pos).map fun q => primSize q.2 hv).sum := by
  intro l
  induction l with
  | nil =>
    intro pos hpos _
    simp [placeLoop]
  | cons hd tl ih =>
    intro pos hpos hall
    obtain ⟨a, sz⟩ := hd
    rw [placeLoop] at hall ⊢
    simp only at hall ⊢
    set s1 := if sz < 3 ∧ 3 ≤ pd then 3 else sz with hs1
    have hs1ge : sz ≤ s1 := by
      rw [hs1]
      split <;> omega
    split at hall
    · exfalso
      have hle := (placeLoop_props hv area pd tl pos hpos).2.2.2
      rw [hall] at hle
      simp at hle
    · split at hall
      · exfalso
        simp at hall
      · rename_i hne hge
        set w := s1 ⊓ (farEdge area hv - pos) with hw
        have hwf : pos + w ≤ farEdge area hv := by
          have hmin : w ≤ farEdge area hv - pos := min_le_right _ _
          omega
        have hall2 : (placeLoop hv area pd tl (pos + w)).length = tl.length := by
          simp only [List.length_cons] at hall
          omega
        have hIH := ih (pos + w) hwf hall2
        rw [if_neg hne, if_neg hge]
        simp only [List.map_cons, List.sum_cons, primSize_mkStrip]
        have hcases : w = s1 ∨ w = farEdge area hv - pos := by
          rw [hw]
          rcases le_total s1 (farEdge area hv - pos) with h | h
          · exact Or.inl (min_eq_left h)
          · exact Or.inr (min_eq_right h)
        rcases hcases with h | h <;> omega

theorem consec_count (hv : Bool) (area : LRect) :
    ∀ (ps : List (Node × LRect)) (pos : Nat),
      consecFrom hv pos ps = true →
      (∀ q ∈ ps,
        (hv = true → q.2.y = area.y ∧ q.2.height = area.height)
        ∧ (hv = false → q.2.x = area.x ∧ q.2.width = area.width)) →
      ∀ px py,
        (ps.countP fun q => q.2.containsB px py)
          = if (if hv = true then
                  pos ≤ px ∧ px < pos + (ps.map fun q => primSize q.2 hv).sum
                    ∧ area.y ≤ py ∧ py < area.y + area.height
                else
                  pos ≤ py ∧ py < pos + (ps.map fun q => primSize q.2 hv).sum
                    ∧ area.x ≤ px ∧ px < area.x + area.width) then 1 else 0 := by
  intro ps
  induction ps with
  | nil =>
    intro pos _ _ px py
    cases hv <;>
      simp only [List.countP_nil, List.map_nil, List.sum_nil, Nat.add_zero,
        eq_self_iff_true, if_true, Bool.false_eq_true, if_false] <;>
      split_ifs <;> omega
  | cons q rest ih =>
    intro pos hcons hshape px py
    obtain ⟨a, r⟩ := q
    rw [consecFrom] at hcons
    simp only [Bool.and_eq_true, decide_eq_true_eq] at hcons
    obtain ⟨hstart, hcons2⟩ := hcons
    have hsh := hshape (a, r) (List.mem_cons_self _ _)
    have ihh := ih (pos + primSize r hv) hcons2
      (fun q hq => hshape q (List.mem_cons_of_mem _ hq)) px py
    rw [List.countP_cons, ihh]
    cases hv with
    | true =>
      obtain ⟨hy, hh⟩ := hsh.1 rfl
      have hy2 : r.y = area.y := hy
      have hh2 : r.height = area.height := hh
      simp only [eq_self_iff_true, if_true]
      simp only [rectPrimStart, if_true] at hstart
      simp only [primSize, if_true, List.map_cons, List.sum_cons]
      simp only [LRect.containsB, Bool.and_eq_true, decide_eq_true_eq]
      split_ifs <;> omega
    | false =>
      obtain ⟨hx, hw⟩ := hsh.2 rfl
      have hx2 : r.x = area.x := hx
      have hw2 : r.width = area.width := hw
      simp only [rectPrimStart] at hstart
      simp only [primSize, LRect.containsB, List.map_cons, List.sum_cons,
        Bool.false_eq_true, if_false, Bool.and_eq_true, decide_eq_true_eq] at hstart ⊢
      split_ifs <;> omega

theorem consec_disjoint (hv : Bool) (area : LRect) (ps : List (Node × LRect)) (pos : Nat)
    (hcons : consecFrom hv pos ps = true)
    (hshape : ∀ q ∈ ps,
      (hv = true → q.2.y = area.y ∧ q.2.height = area.height)
      ∧ (hv = false → q.2.x = area.x ∧ q.2.width = area.width)) :
    ps.Pairwise (fun q1 q2 => ∀ px py,
      ¬(q1.2.containsB px py = true ∧ q2.2.containsB px py = true)) := by
  rw [List.pairwise_iff_forall_sublist]
  intro q1 q2 hsub px py hboth
  obtain ⟨h1, h2⟩ := hboth
  have hcount := consec_count hv area ps pos hcons hshape px py
  have hle := hsub.countP_le (fun q => q.2.containsB px py)
  have h2c : List.countP (fun q => q.2.containsB px py) [q1, q2] = 2 := by
    simp [List.countP_cons, h1, h2]
  rw [h2c, hcount] at hle
  split_ifs at hle <;> omega

/-- **C2.** For every node whose positive-size children sum to the node's
size and every rectangle at least `3×3` (within `u16` range so the
saturating far edge is exact), when the placement loop places every
positive child (no forced early stop): the placed strips' primary-axis
cell counts sum to exactly the primary dimension; the strips are
consecutive from the primary start (no gaps); `layout_tree` returns
exactly the recursive layouts of the placed strips, the final donation
step being a no-op because no cells are left over; every point of the
area is covered by exactly one strip; distinct strips never overlap; and
whenever cells would remain before the far edge, `donate` extends the
last placed rectangle by exactly that leftover along the primary axis. -/
theorem C2_partition (node : Node) (area : LRect) (hv : Bool)
    (hsum : ((posChildren node).map Node.size).sum = node.size)
    (h3w : 3 ≤ area.width) (h3h : 3 ≤ area.height)
    (hbx : area.x + area.width ≤ 65535) (hby : area.y + area.height ≤ 65535)
    (hne : (posChildren node).isEmpty = false)
    (hall : (levelPlaced node area hv).length = (posChildren node).length) :
    ((levelPlaced node area hv).map fun q => primSize q.2 hv).sum = primaryDim area hv
    ∧ consecFrom hv (primaryStart area hv) (levelPlaced node area hv) = true
    ∧ layout_tree node area hv
        = ((levelPlaced node area hv).flatMap fun p => layout_tree p.1 p.2 (!hv))
    ∧ (∀ px py, ((levelPlaced node area hv).countP fun q => q.2.containsB px py)
        = if area.containsB px py = true then 1 else 0)
    ∧ (levelPlaced node area hv).Pairwise (fun q1 q2 => ∀ px py,
        ¬(q1.2.containsB px py = true ∧ q2.2.containsB px py = true))
    ∧ (∀ (pos : Nat) (init : List (LRect × Node)) (r : LRect) (n : Node),
        0 < farEdge area hv - pos →
        donate hv area pos (init ++ [(r, n)])
          = init ++ [(if hv then ⟨r.x, r.y, r.width + (farEdge area hv - pos), r.height⟩
              else ⟨r.x, r.y, r.width, r.height + (farEdge area hv - pos)⟩, n)]) := by
  have hfe : farEdge area hv = primaryStart area hv + primaryDim area hv := by
    cases hv <;>
      simp only [farEdge, primaryStart, primaryDim, LRect.right, LRect.bottom,
        if_true, if_false, Bool.false_eq_true] <;>
      omega
  have hpd65 : primaryDim area hv ≤ 65535 := by
    cases hv <;> simp only [primaryDim, if_true, if_false, Bool.false_eq_true] <;> omega
  have hpd3 : 3 ≤ primaryDim area hv := by
    cases hv <;> simpa [primaryDim]
  have hpcne : posChildren node ≠ [] := by
    intro h
    rw [h] at hne
    cases hne
  have hchne : node.children.isEmpty = false := by
    cases h : node.children with
    | nil =>
      exfalso
      apply hpcne
      rw [posChildren, h]
      rfl
    | cons a l => rfl
  have htotal : 0 < node.size := by
    obtain ⟨c, hc⟩ : ∃ c, c ∈ posChildren node := by
      cases h : posChildren node with
      | nil => exact absurd h hpcne
      | cons a l => exact ⟨a, h ▸ List.mem_cons_self a l⟩
    have hcpos : 0 < c.size := by
      have := (List.mem_filter.1 (by rw [posChildren] at hc; exact hc)).2
      simpa using this
    have hle : c.size ≤ ((posChildren node).map Node.size).sum :=
      List.single_le_sum (fun x _ => Nat.zero_le x) c.size
        (List.mem_map_of_mem Node.size hc)
    omega
  have hszne : ((posChildren node).map Node.size) ≠ [] := by
    intro h
    apply hpcne
    cases hpc : posChildren node
    · rfl
    · rw [hpc] at h
      cases h
  obtain ⟨spec_len, spec_get, spec_sum, spec_fair⟩ :=
    childAlloc_spec node.size (primaryDim area hv) ((posChildren node).map Node.size)
      hpd65 hsum
  have hFle := allocated_le_pd node.size (primaryDim area hv)
    ((posChildren node).map Node.size) hsum
  have hrlt := remainder_lt_len node.size (primaryDim area hv)
    ((posChildren node).map Node.size) htotal hsum hszne
  have halloc_sum : (levelAlloc node area hv).sum = primaryDim area hv := by
    rw [levelAlloc, spec_sum]
    have hlen : (((posChildren node).map Node.size).map
        fun s => s * primaryDim area hv / node.size).sum
        + ((posChildren node).map Node.size).length
        = (((posChildren node).map Node.size).map
            fun s => s * primaryDim area hv / node.size).sum
          + ((posChildren node).map Node.size).length := rfl
    omega
  have halloc_len : (levelAlloc node area hv).length = (posChildren node).length := by
    rw [levelAlloc, spec_len, List.length_map]
  have hsnd : ((posChildren node).zip (levelAlloc node area hv)).map Prod.snd
      = levelAlloc node area hv :=
    List.map_snd_zip _ _ (le_of_eq halloc_len)
  have hzlen : ((posChildren node).zip (levelAlloc node area hv)).length
      = (posChildren node).length := by
    rw [List.length_zip, halloc_len, min_self]
  have hstle : primaryStart area hv ≤ farEdge area hv := by omega
  have hlp : levelPlaced node area hv
      = placeLoop hv area (primaryDim area hv)
          ((posChildren node).zip (levelAlloc node area hv)) (primaryStart area hv) := rfl
  obtain ⟨hcons, hprops, hub, _⟩ :=
    placeLoop_props hv area (primaryDim area hv)
      ((posChildren node).zip (levelAlloc node area hv)) (primaryStart area hv) hstle
  rw [← hlp] at hcons hprops hub
  have hall2 : (placeLoop hv area (primaryDim area hv)
      ((posChildren node).zip (levelAlloc node area hv)) (primaryStart area hv)).length
      = ((posChildren node).zip (levelAlloc node area hv)).length := by
    rw [← hlp, hall, hzlen]
  have hcomp := placeLoop_complete hv area (primaryDim area hv)
    ((posChildren node).zip (levelAlloc node area hv)) (primaryStart area hv) hstle hall2
  rw [← hlp, hsnd, halloc_sum] at hcomp
  have hSigma : ((levelPlaced node area hv).map fun q => primSize q.2 hv).sum
      = primaryDim area hv := by omega
  have hshape : ∀ q ∈ levelPlaced node area hv,
      (hv = true → q.2.y = area.y ∧ q.2.height = area.height)
      ∧ (hv = false → q.2.x = area.x ∧ q.2.width = area.width) :=
    fun q hq => ⟨(hprops q hq).2.2.1, (hprops q hq).2.2.2⟩
  refine ⟨hSigma, hcons, ?_, ?_, ?_, ?_⟩
  · rw [layout_tree_eq]
    rw [if_neg (by simp only [hchne, Bool.false_or, Bool.or_eq_true,
          decide_eq_true_eq]; omega)]
    rw [if_neg (by rw [hne]; exact Bool.false_ne_true)]
    rw [hSigma]
    simp only [donate]
    rw [if_pos (by omega : farEdge area hv
      - (primaryStart area hv + primaryDim area hv) = 0)]
  · intro px py
    have hcount := consec_count hv area (levelPlaced node area hv)
      (primaryStart area hv) hcons hshape px py
    rw [hSigma] at hcount
    rw [hcount]
    cases hv with
    | true =>
      simp only [eq_self_iff_true, if_true, primaryStart, primaryDim,
        LRect.containsB, Bool.and_eq_true, decide_eq_true_eq]
      split_ifs <;> omega
    | false =>
      simp only [Bool.false_eq_true, if_false, primaryStart, primaryDim,
        LRect.containsB, Bool.and_eq_true, decide_eq_true_eq]
      split_ifs <;> omega
  · exact consec_disjoint hv area (levelPlaced node area hv)
      (primaryStart area hv) hcons hshape
  · intro pos init r n hrem
    simp only [donate]
    rw [if_neg (by omega), List.getLast?_concat, List.dropLast_concat]

theorem C2_partition_witness :
    (((posChildren wlayRoot).map Node.size).sum = wlayRoot.size
      ∧ (levelPlaced wlayRoot wArea true).length = (posChildren wlayRoot).length)
    ∧ ((levelPlaced wlayRoot wArea true).map fun q => primSize q.2 true).sum
        = primaryDim wArea true
    ∧ consecFrom true (primaryStart wArea true) (levelPlaced wlayRoot wArea true)
        = true :=
  ⟨⟨by decide, by decide⟩,
    (C2_partition wlayRoot wArea true (by decide) (by decide) (by decide)
      (by decide) (by decide) (by decide) (by decide)).1,
    (C2_partition wlayRoot wArea true (by decide) (by decide) (by decide)
      (by decide) (by decide) (by decide) (by decide)).2.1⟩

/-- The unrestricted partition claim fails at the `u16` saturation
corner: `c2node` has two positive-size children summing to its size,
`c2rect` passes the `3×3` checks and both children are placed — the
placement loop never stops early — yet `area.right()` saturates at
`65535`, the second child is capped from `500` to the `35` remaining
cells, and the placed primary sizes sum to `535`, not the primary
dimension `1000` (and the donation step finds zero cells left before
the saturated far edge, so nothing restores the difference). -/
theorem C2_counterexample :
    (((posChildren c2node).map Node.size).sum = c2node.size
      ∧ 3 ≤ c2rect.width ∧ 3 ≤ c2rect.height
      ∧ (levelPlaced c2node c2rect true).length = (posChildren c2node).length)
    ∧ ((levelPlaced c2node c2rect true).map fun q => primSize q.2 true).sum = 535
    ∧ ((levelPlaced c2node c2rect true).map fun q => primSize q.2 true).sum
        ≠ primaryDim c2rect true := by
  exact ⟨⟨by decide, by decide, by decide, by decide⟩, by decide, by decide⟩

theorem foldl_set_length : ∀ (g : List Nat) (l : List Nat),
    (g.foldl (fun l i => l.set i (l.getD i 0 + 1)) l).length = l.length := by
  intro g
  induction g with
  | nil => intro l; rfl
  | cons i rest ih =>
    intro l
    rw [List.foldl_cons, ih, List.length_set]

theorem childAlloc_length (total pd : Nat) (sizes : List Nat) :
    (childAlloc total pd sizes).length = sizes.length := by
  simp only [childAlloc]
  rw [foldl_set_length, List.length_map]

theorem placeLoop_ne_nil (hv : Bool) (area : LRect) (pd : Nat) (a : Node) (sz : Nat)
    (rest : List (Node × Nat)) (pos : Nat) (hpd : 3 ≤ pd)
    (hfa : farEdge area hv = pos + pd) :
    placeLoop hv area pd ((a, sz) :: rest) pos ≠ [] := by
  rw [placeLoop]
  simp only
  set s1 := if sz < 3 ∧ 3 ≤ pd then 3 else sz with hs1
  have h3 : 3 ≤ s1 := by
    rw [hs1]
    split <;> omega
  rw [if_neg (by omega)]
  rw [if_neg (by omega)]
  exact List.cons_ne_nil _ _

theorem donate_ne_nil (hv : Bool) (area : LRect) (pos : Nat)
    (result : List (LRect × Node)) (h : result ≠ []) :
    donate hv area pos result ≠ [] := by
  simp only [donate]
  split
  · exact h
  · split
    · exact h
    · simp

theorem placeLoop_fst_mem {α : Type} (hv : Bool) (area : LRect) (pd : Nat) :
    ∀ (l : List (α × Nat)) (pos : Nat) (q : α × LRect),
      q ∈ placeLoop hv area pd l pos → q.1 ∈ l.map Prod.fst := by
  intro l
  induction l with
  | nil =>
    intro pos q hq
    cases hq
  | cons hd tl ih =>
    intro pos q hq
    obtain ⟨a, sz⟩ := hd
    rw [placeLoop] at hq
    simp only at hq
    rw [List.map_cons]
    set s1 := if sz < 3 ∧ 3 ≤ pd then 3 else sz with hs1
    split at hq
    · exact List.mem_cons_of_mem _ (ih pos q hq)
    · split at hq
      · cases hq
      · rcases List.mem_cons.1 hq with rfl | hq2
        · exact List.mem_cons_self _ _
        · exact List.mem_cons_of_mem _ (ih _ q hq2)

theorem layout_tree_ne_nil : ∀ (n : Nat) (node : Node) (area : LRect) (hv : Bool),
    sizeOf node ≤ n → area.x + area.width ≤ 65535 → area.y + area.height ≤ 65535 →
    layout_tree node area hv ≠ [] := by
  intro n
  induction n with
  | zero =>
    intro node area hv hsz _ _
    exfalso
    cases node with
    | mk nm s p cs d =>
      simp only [Node.mk.sizeOf_spec] at hsz
      omega
  | succ n ih =>
    intro node area hv hsz hbx hby
    rw [layout_tree_eq]
    split
    · exact List.cons_ne_nil _ _
    · split
      · exact List.cons_ne_nil _ _
      · rename_i hc1 hc2
        simp only [Bool.or_eq_true, decide_eq_true_eq, not_or] at hc1
        obtain ⟨⟨hcne, hw3⟩, hh3⟩ := hc1
        have hfa : farEdge area hv = primaryStart area hv + primaryDim area hv := by
          cases hv <;>
            simp only [farEdge, primaryStart, primaryDim, LRect.right, LRect.bottom,
              if_true, if_false, Bool.false_eq_true] <;>
            omega
        have hpd3 : 3 ≤ primaryDim area hv := by
          cases hv <;>
            simp only [primaryDim, if_true, if_false, Bool.false_eq_true] <;>
            omega
        have hpcne : posChildren node ≠ [] := by
          intro h
          rw [h] at hc2
          exact hc2 rfl
        have halen : (levelAlloc node area hv).length = (posChildren node).length := by
          rw [levelAlloc, childAlloc_length, List.length_map]
        have hlp : levelPlaced node area hv
            = placeLoop hv area (primaryDim area hv)
                ((posChildren node).zip (levelAlloc node area hv))
                (primaryStart area hv) := rfl
        have hlpne : levelPlaced node area hv ≠ [] := by
          cases hpc : posChildren node with
          | nil => exact absurd hpc hpcne
          | cons c cs =>
            cases hla : levelAlloc node area hv with
            | nil =>
              rw [hpc, hla] at halen
              simp at halen
            | cons a as =>
              have heq : levelPlaced node area hv
                  = placeLoop hv area (primaryDim area hv)
                      ((c, a) :: cs.zip as) (primaryStart area hv) := by
                rw [hlp, hpc, hla]
                rfl
              rw [heq]
              exact placeLoop_ne_nil hv area (primaryDim area hv) c a (cs.zip as)
                (primaryStart area hv) hpd3 (by omega)
        obtain ⟨q, rest, hq⟩ : ∃ q rest, levelPlaced node area hv = q :: rest := by
          cases h : levelPlaced node area hv with
          | nil => exact absurd h hlpne
          | cons q rest => exact ⟨q, rest, rfl⟩
        apply donate_ne_nil
        have hstle : primaryStart area hv ≤ farEdge area hv := by omega
        have hprops := (placeLoop_props hv area (primaryDim area hv)
          ((posChildren node).zip (levelAlloc node area hv))
          (primaryStart area hv) hstle).2.1
        have hqmem : q ∈ placeLoop hv area (primaryDim area hv)
            ((posChildren node).zip (levelAlloc node area hv)) (primaryStart area hv) := by
          rw [← hlp, hq]
          exact List.mem_cons_self _ _
        obtain ⟨hq3, hqfar, hqsh1, hqsh2⟩ := hprops q hqmem
        have hfar65 : farEdge area hv ≤ 65535 := by
          cases hv <;>
            simp only [farEdge, LRect.right, LRect.bottom, if_true, if_false,
              Bool.false_eq_true] <;>
            omega
        have hqbx : q.2.x + q.2.width ≤ 65535 := by
          cases hv with
          | true =>
            simp only [rectPrimStart, primSize, if_true] at hqfar
            omega
          | false =>
            obtain ⟨hx, hw⟩ := hqsh2 rfl
            omega
        have hqby : q.2.y + q.2.height ≤ 65535 := by
          cases hv with
          | true =>
            obtain ⟨hy, hh⟩ := hqsh1 rfl
            omega
          | false =>
            simp only [rectPrimStart, primSize, if_false, Bool.false_eq_true] at hqfar
            omega
        have hq1mem : q.1 ∈ posChildren node := by
          have h1 := placeLoop_fst_mem hv area (primaryDim area hv)
            ((posChildren node).zip (levelAlloc node area hv))
            (primaryStart area hv) q hqmem
          rw [List.map_fst_zip _ _ (le_of_eq halen.symm)] at h1
          exact h1
        have hq1ch : q.1 ∈ node.children := by
          rw [posChildren] at hq1mem
          exact (List.mem_filter.1 hq1mem).1
        have hszle : sizeOf q.1 ≤ n := by
          have h1 : sizeOf q.1 < sizeOf node.children := List.sizeOf_lt_of_mem hq1ch
          cases node with
          | mk nm s p cs d =>
            simp only at h1
            simp only [Node.mk.sizeOf_spec] at hsz
            omega
        have hne2 := ih q.1 q.2 (!hv) hszle hqbx hqby
        rw [hq, List.flatMap_cons]
        intro habs
        exact hne2 ((List.append_eq_nil.1 habs).1)

/-- **C10.** For every node whose positive-size children sum to its size
and every rectangle within `u16` range (`x + width ≤ 65535` and
`y + height ≤ 65535`, so the saturating far edge leaves the full primary
dimension available), `layout_tree` is total and returns a non-empty
list; the division by `node.size` is only reached when some child has
positive size (so `node.size > 0`); the subtraction
`primary_dim - allocated` never underflows because the capped floored
shares sum to at most the primary dimension; and past the base cases the
placement loop places at least the first positive child, every placed
strip having width and height at least `3`. For rectangles at the
saturation corner (`x + width > 65535`) the result can be empty, so the
range hypothesis is necessary. -/
theorem C10_total_nonempty (node : Node) (area : LRect) (hv : Bool)
    (hsum : ((posChildren node).map Node.size).sum = node.size)
    (hbx : area.x + area.width ≤ 65535) (hby : area.y + area.height ≤ 65535) :
    layout_tree node area hv ≠ []
    ∧ ((posChildren node).isEmpty = false → 0 < node.size)
    ∧ ((((posChildren node).map Node.size).map
          fun s => min (s * primaryDim area hv / node.size) 65535).sum
        ≤ primaryDim area hv)
    ∧ ((posChildren node).isEmpty = false → 3 ≤ area.width → 3 ≤ area.height →
        levelPlaced node area hv ≠ []
        ∧ ∀ q ∈ levelPlaced node area hv, 3 ≤ q.2.width ∧ 3 ≤ q.2.height) := by
  refine ⟨layout_tree_ne_nil (sizeOf node) node area hv le_rfl hbx hby, ?_, ?_, ?_⟩
  · intro hne
    have hpcne : posChildren node ≠ [] := by
      intro h
      rw [h] at hne
      cases hne
    obtain ⟨c, hc⟩ : ∃ c, c ∈ posChildren node := by
      cases h : posChildren node with
      | nil => exact absurd h hpcne
      | cons a l => exact ⟨a, h ▸ List.mem_cons_self a l⟩
    have hcpos : 0 < c.size := by
      have := (List.mem_filter.1 (by rw [posChildren] at hc; exact hc)).2
      simpa using this
    have hle : c.size ≤ ((posChildren node).map Node.size).sum :=
      List.single_le_sum (fun x _ => Nat.zero_le x) c.size
        (List.mem_map_of_mem Node.size hc)
    omega
  · have h1 : ((((posChildren node).map Node.size).map
        fun s => min (s * primaryDim area hv / node.size) 65535).sum)
        ≤ ((((posChildren node).map Node.size).map
            fun s => s * primaryDim area hv / node.size).sum) :=
      List.sum_le_sum (fun s _ => min_le_left _ _)
    have h2 := allocated_le_pd node.size (primaryDim area hv)
      ((posChildren node).map Node.size) hsum
    omega
  · intro hne hw3 hh3
    have hpcne : posChildren node ≠ [] := by
      intro h
      rw [h] at hne
      cases hne
    have hfa : farEdge area hv = primaryStart area hv + primaryDim area hv := by
      cases hv <;>
        simp only [farEdge, primaryStart, primaryDim, LRect.right, LRect.bottom,
          if_true, if_false, Bool.false_eq_true] <;>
        omega
    have hpd3 : 3 ≤ primaryDim area hv := by
      cases hv <;>
        simp only [primaryDim, if_true, if_false, Bool.false_eq_true] <;>
        omega
    have halen : (levelAlloc node area hv).length = (posChildren node).length := by
      rw [levelAlloc, childAlloc_length, List.length_map]
    have hlp : levelPlaced node area hv
        = placeLoop hv area (primaryDim area hv)
            ((posChildren node).zip (levelAlloc node area hv))
            (primaryStart area hv) := rfl
    refine ⟨?_, ?_⟩
    · cases hpc : posChildren node with
      | nil => exact absurd hpc hpcne
      | cons c cs =>
        cases hla : levelAlloc node area hv with
        | nil =>
          rw [hpc, hla] at halen
          simp at halen
        | cons a as =>
          have heq : levelPlaced node area hv
              = placeLoop hv area (primaryDim area hv)
                  ((c, a) :: cs.zip as) (primaryStart area hv) := by
            rw [hlp, hpc, hla]
            rfl
          rw [heq]
          exact placeLoop_ne_nil hv area (primaryDim area hv) c a (cs.zip as)
            (primaryStart area hv) hpd3 (by omega)
    · intro q hq
      have hstle : primaryStart area hv ≤ farEdge area hv := by omega
      have hprops := (placeLoop_props hv area (primaryDim area hv)
        ((posChildren node).zip (levelAlloc node area hv))
        (primaryStart area hv) hstle).2.1
      rw [hlp] at hq
      obtain ⟨hq3, _, hqsh1, hqsh2⟩ := hprops q hq
      cases hv with
      | true =>
        obtain ⟨_, hh⟩ := hqsh1 rfl
        simp only [primSize, if_true] at hq3
        omega
      | false =>
        obtain ⟨_, hw⟩ := hqsh2 rfl
        simp only [primSize, if_false, Bool.false_eq_true] at hq3
        omega

theorem C10_total_nonempty_witness :
    (((posChildren wlayRoot).map Node.size).sum = wlayRoot.size
      ∧ wArea.x + wArea.width ≤ 65535 ∧ wArea.y + wArea.height ≤ 65535)
    ∧ layout_tree wlayRoot wArea true ≠ []
    ∧ levelPlaced wlayRoot wArea true ≠ [] :=
  ⟨⟨by decide, by decide, by decide⟩,
    (C10_total_nonempty wlayRoot wArea true (by decide) (by decide) (by decide)).1,
    ((C10_total_nonempty wlayRoot wArea true (by decide) (by decide)
      (by decide)).2.2.2 (by decide) (by decide) (by decide)).1⟩

/-- The unrestricted claim fails at the `u16` saturation corner: the
node `wlayRoot` has positive-size children summing to its size, the
rectangle `⟨65534, 0, 10, 10⟩` passes the `3×3` base-case checks, yet
`Rect::right()` saturates at `65535`, only one cell is available from
the starting position `65534`, the placement loop stops before placing
any child, and `layout_tree` returns the empty list. -/
theorem C10_counterexample :
    (((posChildren wlayRoot).map Node.size).sum = wlayRoot.size)
    ∧ layout_tree wlayRoot c10rect true = [] := by
  refine ⟨by decide, ?_⟩
  rw [layout_tree_eq]
  rw [if_neg (by decide)]
  rw [if_neg (by decide)]
  have h : levelPlaced wlayRoot c10rect true = [] := rfl
  rw [h]
  rfl

theorem goodList_iff_forall : ∀ (pp : List String) (cs : List Node),
    goodList pp cs = true
      ↔ ∀ c ∈ cs, childOkB pp c = true ∧ goodTree c = true := by
  intro pp cs
  induction cs with
  | nil =>
    constructor
    · intro _ c hc
      cases hc
    · intro _
      rfl
  | cons c rest ih =>
    rw [goodList]
    simp only [Bool.and_eq_true, ih]
    constructor
    · rintro ⟨⟨h1, h2⟩, h3⟩ e he
      rcases List.mem_cons.1 he with rfl | he2
      · exact ⟨h1, h2⟩
      · exact h3 e he2
    · intro h
      exact ⟨⟨(h c (List.mem_cons_self _ _)).1, (h c (List.mem_cons_self _ _)).2⟩,
        fun e he => h e (List.mem_cons_of_mem _ he)⟩

theorem mem_nodesL : ∀ (cs : List Node) (d : Node),
    d ∈ nodesL cs ↔ ∃ c ∈ cs, d ∈ nodesOf c := by
  intro cs d
  induction cs with
  | nil =>
    constructor
    · intro h
      cases h
    · rintro ⟨c, hc, _⟩
      cases hc
  | cons c rest ih =>
    rw [nodesL, List.mem_append, ih]
    constructor
    · rintro (h | ⟨c', hc', hd⟩)
      · exact ⟨c, List.mem_cons_self _ _, h⟩
      · exact ⟨c', List.mem_cons_of_mem _ hc', hd⟩
    · rintro ⟨c', hc', hd⟩
      rcases List.mem_cons.1 hc' with rfl | hc2
      · exact Or.inl hd
      · exact Or.inr ⟨c', hc2, hd⟩

theorem scan_names (ignore : Bool) (path : List String) :
    ∀ (entries : List FSEntryRes) (cs : List Node) (t fc ft : Nat),
      scanEntries ignore path entries = .ok (cs, t, fc, ft) →
        (cs.map Node.name).Sublist (entryNames entries) := by
  intro entries
  induction entries with
  | nil =>
    intro cs t fc ft h
    rw [scanEntries] at h
    cases h
    exact List.Sublist.refl _
  | cons hd rest ih =>
    intro cs t fc ft h
    match hd with
    | .entryErr e =>
      rw [scanEntries] at h
      split at h
      · rw [entryNames]
        exact ih _ _ _ _ h
      · cases h
    | .entry (.symlink n) =>
      rw [scanEntries] at h
      rw [entryNames]
      exact List.Sublist.cons _ (ih _ _ _ _ h)
    | .entry (.file n sz) =>
      rw [scanEntries] at h
      rcases hscan : scanEntries ignore path rest with e | res
      · rw [hscan, except_bind_err] at h
        cases h
      · obtain ⟨cs', t', fc', ft'⟩ := res
        rw [hscan, except_bind_ok] at h
        simp only [Except.ok.injEq, Prod.mk.injEq] at h
        obtain ⟨h1, _, _, _⟩ := h
        subst h1
        rw [entryNames, List.map_cons]
        exact List.Sublist.cons₂ _ (ih _ _ _ _ hscan)
    | .entry (.dir n c0) =>
      rw [scanEntries] at h
      rcases hchild : build_tree ignore (path ++ [n]) c0 with e | child
      · rw [hchild, except_bind_err] at h
        cases h
      · rw [hchild, except_bind_ok] at h
        rcases hscan : scanEntries ignore path rest with e | res
        · rw [hscan, except_bind_err] at h
          cases h
        · obtain ⟨cs', t', fc', ft'⟩ := res
          rw [hscan, except_bind_ok] at h
          simp only [Except.ok.injEq, Prod.mk.injEq] at h
          obtain ⟨h1, _, _, _⟩ := h
          subst h1
          rw [entryNames, List.map_cons]
          obtain ⟨_, hn, _⟩ := build_tree_meta ignore (path ++ [n]) c0 child hchild
          rw [hn, lastName_append, fsname]
          exact List.Sublist.cons₂ _ (ih _ _ _ _ hscan)

theorem build_good (ignore : Bool) (path : List String) (fs : FSDir)
    (node : Node) (hwf : wfDir fs = true)
    (h : build_tree ignore path fs = .ok node) : goodTree node = true := by
  refine build_tree.induct ignore
    (fun path fs => wfDir fs = true →
      ∀ node, build_tree ignore path fs = .ok node → goodTree node = true)
    (fun path entries => wfEntries entries = true →
      ∀ cs t fc ft, scanEntries ignore path entries = .ok (cs, t, fc, ft) →
        ∀ c ∈ cs, goodTree c = true)
    ?_ ?_ ?_ ?_ ?_ ?_ ?_ ?_ ?_ path fs hwf node h
  · -- whole-directory permission failure: childless placeholder is good
    intro path e hpe _ node hn
    rw [build_tree, if_pos hpe] at hn
    cases hn
    rw [goodTree, goodList]
    simp [realNames]
  · -- whole-directory failure, fatal
    intro path e hpe _ node hn
    rw [build_tree, if_neg hpe] at hn
    cases hn
  · -- successful directory read
    intro path entries ih hwf node hn
    rw [wfDir] at hwf
    simp only [Bool.and_eq_true, decide_eq_true_eq] at hwf
    obtain ⟨hwfe, hnodup⟩ := hwf
    rw [build_tree] at hn
    rcases hscan : scanEntries ignore path entries with e | res
    · rw [hscan, except_bind_err] at hn
      cases hn
    · obtain ⟨cs, t, fc, ft⟩ := res
      rw [hscan, except_bind_ok] at hn
      have hgood : ∀ c ∈ cs, goodTree c = true := ih hwfe cs t fc ft hscan
      have hreal : ∀ c ∈ cs, c.path = path ++ [c.name] :=
        scan_paths ignore path entries cs t fc ft hscan
      have hnames : (cs.map Node.name).Sublist (entryNames entries) :=
        scan_names ignore path entries cs t fc ft hscan
      simp only [foldSmall_eq] at hn
      simp only [Except.ok.injEq] at hn
      subst hn
      set thr := threshold fc t ft with hthr
      set sorted := sortDesc Node.size cs with hsorted
      have hperm : sorted.Perm cs := sortDesc_perm Node.size cs
      set filtered := sorted.filter fun c => c.is_dir || !decide (c.size < thr)
        with hfiltered
      have hmemf : ∀ c ∈ filtered, c ∈ cs := fun c hc =>
        hperm.subset ((List.filter_sublist _).subset hc)
      have hnodup_cs : (cs.map Node.name).Nodup := hnodup.sublist hnames
      have hnodup_sorted : (sorted.map Node.name).Nodup :=
        ((hperm.map Node.name).nodup_iff).2 hnodup_cs
      have hnodup_f : (filtered.map Node.name).Nodup :=
        hnodup_sorted.sublist ((List.filter_sublist _).map Node.name)
      have hrn_f : realNames path filtered = filtered.map Node.name := by
        rw [realNames]
        rw [List.filter_eq_self.2 fun c hc => by
          rw [hreal c (hmemf c hc)]
          simp]
      have hok_f : ∀ c ∈ filtered, childOkB path c = true ∧ goodTree c = true := by
        intro c hc
        refine ⟨?_, hgood c (hmemf c hc)⟩
        rw [childOkB, hreal c (hmemf c hc)]
        simp
      rw [goodTree]
      simp only [Bool.and_eq_true, decide_eq_true_eq]
      split
      · refine ⟨?_, ?_⟩
        · rw [goodList_iff_forall]
          intro c hc
          rcases List.mem_append.1 hc with hc1 | hc2
          · exact hok_f c hc1
          · rcases List.mem_cons.1 hc2 with rfl | habs
            · constructor
              · rw [childOkB]
                simp
              · rw [goodTree, goodList]
                simp [realNames]
            · cases habs
        · rw [realNames, List.filter_append, List.map_append]
          have hother : (List.filter (fun c => decide (c.path = path ++ [c.name]))
              [(⟨"Прочее", ((sorted.filter fun c =>
                !c.is_dir && decide (c.size < thr)).map Node.size).sum,
                path, [], false⟩ : Node)]) = [] := by
            simp [List.filter_cons]
          rw [hother, List.map_nil, List.append_nil]
          rw [← realNames, hrn_f]
          exact hnodup_f
      · refine ⟨?_, ?_⟩
        · rw [goodList_iff_forall]
          exact hok_f
        · rw [hrn_f]
          exact hnodup_f
  · -- scan: empty listing
    intro path _ cs t fc ft hn
    rw [scanEntries] at hn
    cases hn
    intro c hc
    cases hc
  · -- scan: skipped permission-denied entry
    intro path e rest hpe ih hwf cs t fc ft hn
    rw [scanEntries, if_pos hpe] at hn
    rw [wfEntries] at hwf
    exact ih hwf cs t fc ft hn
  · -- scan: fatal entry error
    intro path e rest hpe _ cs t fc ft hn
    rw [scanEntries, if_neg hpe] at hn
    cases hn
  · -- scan: symlink skipped
    intro path name rest ih hwf cs t fc ft hn
    rw [scanEntries] at hn
    rw [wfEntries] at hwf
    simp only [wfFSNode, Bool.true_and] at hwf
    exact ih hwf cs t fc ft hn
  · -- scan: file entry
    intro path n sz rest ih hwf cs t fc ft hn
    rw [wfEntries] at hwf
    simp only [wfFSNode, Bool.true_and] at hwf
    rw [scanEntries] at hn
    rcases hscan : scanEntries ignore path rest with e | res
    · rw [hscan, except_bind_err] at hn
      cases hn
    · obtain ⟨cs', t', fc', ft'⟩ := res
      rw [hscan, except_bind_ok] at hn
      simp only [Except.ok.injEq, Prod.mk.injEq] at hn
      obtain ⟨h1, _, _, _⟩ := hn
      subst h1
      intro c hc
      rcases List.mem_cons.1 hc with rfl | hc'
      · rw [goodTree, goodList]
        simp [realNames]
      · exact ih hwf cs' t' fc' ft' hscan c hc'
  · -- scan: directory entry (recursive call)
    intro path n c0 rest ih1 ih2 hwf cs t fc ft hn
    rw [wfEntries] at hwf
    simp only [wfFSNode, Bool.and_eq_true] at hwf
    obtain ⟨hwfd, hwfr⟩ := hwf
    rw [scanEntries] at hn
    rcases hchild : build_tree ignore (path ++ [n]) c0 with e | child
    · rw [hchild, except_bind_err] at hn
      cases hn
    · rw [hchild, except_bind_ok] at hn
      rcases hscan : scanEntries ignore path rest with e | res
      · rw [hscan, except_bind_err] at hn
        cases hn
      · obtain ⟨cs', t', fc', ft'⟩ := res
        rw [hscan, except_bind_ok] at hn
        simp only [Except.ok.injEq, Prod.mk.injEq] at hn
        obtain ⟨h1, _, _, _⟩ := hn
        subst h1
        intro c hc
        rcases List.mem_cons.1 hc with rfl | hc'
        · exact ih1 hwfd c hchild
        · exact ih2 hwfr cs' t' fc' ft' hscan c hc'

theorem prefix_snoc_inj (p : List String) (a b : String) (X : List String)
    (ha : (p ++ [a]) <+: X) (hb : (p ++ [b]) <+: X) : a = b := by
  obtain ⟨u, hu⟩ := ha
  obtain ⟨v, hv⟩ := hb
  rw [← hv] at hu
  rw [List.append_assoc, List.append_assoc] at hu
  have h2 := List.append_cancel_left hu
  simp only [List.singleton_append, List.cons_append] at h2
  exact (List.cons.injEq _ _ _ _ ▸ h2).1

theorem nodesOf_path_prefix : ∀ (n : Nat) (c : Node), sizeOf c ≤ n →
    goodTree c = true → ∀ e ∈ nodesOf c, c.path <+: e.path := by
  intro n
  induction n with
  | zero =>
    intro c hsz
    exfalso
    cases c with
    | mk nm s p cs d =>
      simp only [Node.mk.sizeOf_spec] at hsz
      omega
  | succ n ih =>
    intro c hsz hg e he
    obtain ⟨nm, s, p, cs, d⟩ := c
    rw [goodTree] at hg
    simp only [Bool.and_eq_true, decide_eq_true_eq] at hg
    obtain ⟨hgl, _⟩ := hg
    rw [nodesOf] at he
    rcases List.mem_cons.1 he with rfl | he2
    · exact ⟨[], List.append_nil _⟩
    · obtain ⟨ch, hch, hech⟩ := (mem_nodesL cs e).1 he2
      have hsz2 : sizeOf ch ≤ n := by
        have h1 : sizeOf ch < sizeOf cs := List.sizeOf_lt_of_mem hch
        simp only [Node.mk.sizeOf_spec] at hsz
        omega
      obtain ⟨hok, hgch⟩ := (goodList_iff_forall p cs).1 hgl ch hch
      have hpre : ch.path <+: e.path := ih ch hsz2 hgch e hech
      rw [childOkB] at hok
      simp only [Bool.or_eq_true, Bool.and_eq_true, decide_eq_true_eq] at hok
      rcases hok with hre | ⟨⟨hsame, _⟩, _⟩
      · have hp1 : p <+: p ++ [ch.name] := ⟨[ch.name], rfl⟩
        exact hp1.trans (hre ▸ hpre)
      · exact hsame ▸ hpre

theorem findRec_none : ∀ (n : Nat) (c : Node), sizeOf c ≤ n → ∀ target,
    (∀ e ∈ nodesOf c, e.path ≠ target) → findRec target c = none := by
  intro n
  induction n with
  | zero =>
    intro c hsz
    exfalso
    cases c with
    | mk nm s p cs d =>
      simp only [Node.mk.sizeOf_spec] at hsz
      omega
  | succ n ih =>
    intro c hsz target hne
    obtain ⟨nm, s, p, cs, d⟩ := c
    rw [findRec]
    rw [if_neg (hne ⟨nm, s, p, cs, d⟩ (by rw [nodesOf]; exact List.mem_cons_self _ _))]
    have hszc : ∀ c' ∈ cs, sizeOf c' ≤ n := by
      intro c' hc'
      have h1 : sizeOf c' < sizeOf cs := List.sizeOf_lt_of_mem hc'
      simp only [Node.mk.sizeOf_spec] at hsz
      omega
    have hneL : ∀ e ∈ nodesL cs, e.path ≠ target := by
      intro e he
      exact hne e (by rw [nodesOf]; exact List.mem_cons_of_mem _ he)
    clear hne hsz
    induction cs with
    | nil => rfl
    | cons c' rest ihl =>
      rw [findChild]
      rw [ih c' (hszc c' (List.mem_cons_self _ _)) target fun e he =>
        hneL e (by rw [nodesL]; exact List.mem_append_left _ he)]
      exact ihl (fun x hx => hszc x (List.mem_cons_of_mem _ hx))
        (fun e he => hneL e (by rw [nodesL]; exact List.mem_append_right _ he))

theorem find_dir_aux : ∀ (n : Nat) (c : Node), sizeOf c ≤ n → goodTree c = true →
    ∀ d ∈ nodesOf c, d.is_dir = true → findRec d.path c = some d := by
  intro n
  induction n with
  | zero =>
    intro c hsz
    exfalso
    cases c with
    | mk nm s p cs dd =>
      simp only [Node.mk.sizeOf_spec] at hsz
      omega
  | succ n ih =>
    intro c hsz hg d hd hdir
    obtain ⟨nm, s, p, cs, dd⟩ := c
    rw [goodTree] at hg
    simp only [Bool.and_eq_true, decide_eq_true_eq] at hg
    obtain ⟨hgl, hnodup⟩ := hg
    have hszc : ∀ x ∈ cs, sizeOf x ≤ n := by
      intro x hx
      have h1 : sizeOf x < sizeOf cs := List.sizeOf_lt_of_mem hx
      simp only [Node.mk.sizeOf_spec] at hsz
      omega
    rw [nodesOf] at hd
    rw [findRec]
    rcases List.mem_cons.1 hd with rfl | hd2
    · rw [if_pos rfl]
    · have hnep : p ≠ d.path := by
        obtain ⟨c0, hc0, hdc0⟩ := (mem_nodesL cs d).1 hd2
        obtain ⟨hok0, hg0⟩ := (goodList_iff_forall p cs).1 hgl c0 hc0
        rw [childOkB] at hok0
        simp only [Bool.or_eq_true, Bool.and_eq_true, decide_eq_true_eq] at hok0
        rcases hok0 with hre0 | ⟨⟨hsame0, hnd0⟩, hemp0⟩
        · have hpre : c0.path <+: d.path :=
            nodesOf_path_prefix n c0 (hszc c0 hc0) hg0 d hdc0
          rw [hre0] at hpre
          intro h
          have hlen := hpre.length_le
          rw [← h] at hlen
          simp at hlen
        · exfalso
          obtain ⟨n0, s0, p0, cs0, d0⟩ := c0
          simp only [List.isEmpty_iff] at hemp0
          subst hemp0
          rw [nodesOf, nodesL] at hdc0
          rcases List.mem_cons.1 hdc0 with rfl | habs
          · rw [hdir] at hnd0
            cases hnd0
          · cases habs
      rw [if_neg hnep]
      clear hd hnep hsz
      revert hgl hnodup hszc hd2
      induction cs with
      | nil =>
        intro _ _ _ hd2
        have hnil : nodesL [] = ([] : List Node) := rfl
        rw [hnil] at hd2
        cases hd2
      | cons c1 rest ihl =>
        intro hgl hnodup hszc hd2
        rw [goodList] at hgl
        simp only [Bool.and_eq_true] at hgl
        obtain ⟨⟨hok1, hg1⟩, hglr⟩ := hgl
        have hcons : nodesL (c1 :: rest) = nodesOf c1 ++ nodesL rest := rfl
        rw [hcons] at hd2
        have hnodr : (realNames p rest).Nodup := by
          rw [realNames, List.filter_cons] at hnodup
          split at hnodup
          · rw [List.map_cons] at hnodup
            rw [realNames]
            exact (List.nodup_cons.1 hnodup).2
          · rw [realNames]
            exact hnodup
        rcases List.mem_append.1 hd2 with hd3 | hd3
        · rw [findChild]
          rw [ih c1 (hszc c1 (List.mem_cons_self _ _)) hg1 d hd3 hdir]
        · obtain ⟨c2, hc2, hdc2⟩ := (mem_nodesL rest d).1 hd3
          obtain ⟨hok2, hg2⟩ := (goodList_iff_forall p rest).1 hglr c2 hc2
          rw [childOkB] at hok2
          simp only [Bool.or_eq_true, Bool.and_eq_true, decide_eq_true_eq] at hok2
          rcases hok2 with hre2 | ⟨⟨hsame2, hnd2⟩, hemp2⟩
          · have hpre2 : (p ++ [c2.name]) <+: d.path := by
              have h0 := nodesOf_path_prefix n c2
                (hszc c2 (List.mem_cons_of_mem _ hc2)) hg2 d hdc2
              rw [hre2] at h0
              exact h0
            have hnone : findRec d.path c1 = none := by
              apply findRec_none n c1 (hszc c1 (List.mem_cons_self _ _))
              intro e he heq
              rw [childOkB] at hok1
              simp only [Bool.or_eq_true, Bool.and_eq_true, decide_eq_true_eq] at hok1
              rcases hok1 with hre1 | ⟨⟨hsame1, hnd1⟩, hemp1⟩
              · have hpre1 : (p ++ [c1.name]) <+: e.path := by
                  have h0 := nodesOf_path_prefix n c1
                    (hszc c1 (List.mem_cons_self _ _)) hg1 e he
                  rw [hre1] at h0
                  exact h0
                rw [heq] at hpre1
                have hname : c1.name = c2.name := prefix_snoc_inj p _ _ _ hpre1 hpre2
                have hrncons : realNames p (c1 :: rest)
                    = c1.name :: realNames p rest := by
                  rw [realNames, List.filter_cons, if_pos (by rw [hre1]; simp)]
                  rw [List.map_cons]
                  rfl
                rw [hrncons] at hnodup
                apply (List.nodup_cons.1 hnodup).1
                rw [hname, realNames]
                exact List.mem_map_of_mem Node.name
                  (List.mem_filter.2 ⟨hc2, by rw [hre2]; simp⟩)
              · obtain ⟨n1, s1, p1, cs1, d1⟩ := c1
                simp only [List.isEmpty_iff] at hemp1
                subst hemp1
                rw [nodesOf, nodesL] at he
                rcases List.mem_cons.1 he with rfl | habs
                · have hp1 : p1 = p := hsame1
                  have hlen := hpre2.length_le
                  rw [← heq] at hlen
                  simp only [hp1] at hlen
                  simp at hlen
                · cases habs
            rw [findChild, hnone]
            exact ihl hglr hnodr
              (fun x hx => hszc x (List.mem_cons_of_mem _ hx)) hd3
          · exfalso
            obtain ⟨n2, s2, p2, cs2, d2⟩ := c2
            simp only [List.isEmpty_iff] at hemp2
            subst hemp2
            rw [nodesOf, nodesL] at hdc2
            rcases List.mem_cons.1 hdc2 with rfl | habs
            · rw [hdir] at hnd2
              cases hnd2
            · cases habs

/-- **C9.** For every tree built by `build_tree` from a well-formed
filesystem (entry names unique within each directory, as on a real
filesystem) and every directory node `d` of that tree, `find_node` on
`d.path` returns `d` itself — never the synthetic "Прочее" child, which
carries its owning directory's path but is visited only after it, the
search checking each node before descending into its children. Hence
resolving `current_dir` always yields the directory. -/
theorem C9_find_node_directory (ignore : Bool) (path : List String) (fs : FSDir)
    (node d : Node) (hwf : wfDir fs = true)
    (hb : build_tree ignore path fs = .ok node)
    (hd : d ∈ nodesOf node) (hdir : d.is_dir = true) :
    (App.new node).find_node d.path = some d := by
  have hg := build_good ignore path fs node hwf hb
  have h1 := find_dir_aux (sizeOf node) node le_rfl hg d hd hdir
  rw [App.find_node]
  split
  · rename_i hcond
    obtain ⟨nm, s, p, cs, dd⟩ := node
    rw [findRec] at h1
    rw [if_pos (show p = d.path from hcond)] at h1
    exact h1
  · exact h1

/-- C9 witness: in the tree built from the sample filesystem, the
subdirectory is found by its path even though the sibling "Прочее" node
shares the root's path. -/
theorem C9_find_node_directory_witness :
    (wfDir wFS = true ∧ build_tree false ["r"] wFS = .ok wNode
      ∧ wSubdir ∈ nodesOf wNode ∧ wSubdir.is_dir = true)
    ∧ (App.new wNode).find_node wSubdir.path = some wSubdir :=
  ⟨⟨by decide, rfl,
    List.mem_cons_of_mem _ (List.mem_append_left _ (List.mem_cons_self _ _)), rfl⟩,
    C9_find_node_directory false ["r"] wFS wNode wSubdir (by decide) rfl
      (List.mem_cons_of_mem _ (List.mem_append_left _ (List.mem_cons_self _ _))) rfl⟩
